import Mathlib

/-!
# Sharded key-value store with WAL and snapshots: embedding of `server/main.go`

Bytes are natural numbers below 256; Go strings and `[]byte` are lists of bytes.
A Go `map[string][]byte` is an association list with unique keys, the 32 shards
are a function on `Fin numShards`.  `uint64` counters are natural numbers
reduced modulo `2 ^ 64` after every operation.

The files of the data directory are part of the state: the log is the list of
bytes behind the append handle, the snapshot file is its parsed content.  What
the operating system and the clock do during a call is an argument of the call
(`WalOutcome`, `SnapshotOutcome`, `Disk`).

Locks are not modelled: every handler is one atomic step.  The interleaving of
one `Set` with one `takeSnapshot` is a step system over the atomic steps of the
two calls (`System`, `Event`).

The library functions the code calls are modelled from their documented
behaviour: FNV-1a (`fnv32a`), `%d` (`formatInt`), `strconv.ParseInt`,
`base64.StdEncoding`, `strings.SplitN`, `bufio.Scanner` with `ScanLines`.

Definitions come first, reference definitions written from the specification
are marked as such, theorems follow.
-/

namespace KVStore

/-! ## Constants (`const (...)` block) -/

def MaxKeySize : Nat := 128
def numShards : Nat := 32
def walSizeThreshold : Int := 256 * 1024 * 1024
/-- The `const maxLineSize` of `recoverStore`. -/
def maxLineSize : Nat := 10 * 1024 * 1024

/-! ## Data model -/

abbrev Key := List Nat
abbrev Value := List Nat

/-- Go `map[string][]byte`. -/
abbrev GoMap := AList (fun _ : Key => Value)

/-- The `store` map of one `KeyValueStoreShard`. -/
abbrev KeyValueStoreShard := GoMap

/-- ASCII text as bytes, for writing concrete inputs. -/
def ascii (s : String) : List Nat := s.toList.map Char.toNat

/-- Unsigned 64-bit wrap-around. -/
def u64 (n : Nat) : Nat := n % 2 ^ 64

/-- Go `a - b` on `uint64`. -/
def subU64 (a b : Nat) : Nat := (a % 2 ^ 64 + 2 ^ 64 - b % 2 ^ 64) % 2 ^ 64

/-- Go `a + b` on `uint64`. -/
def addU64 (a b : Nat) : Nat := (a + b) % 2 ^ 64

/-- Signed 64-bit wrap-around. -/
def wrapInt64 (x : Int) : Int := (x + 2 ^ 63) % 2 ^ 64 - 2 ^ 63

structure Statistics where
  totalKeys : Nat
  totalSizeBytes : Nat
  setOperations : Nat
  getOperations : Nat
  prefixOperations : Nat
deriving DecidableEq, Repr

structure SnapshotData where
  Timestamp : Int
  Data : GoMap
deriving DecidableEq

/-- What `os.ReadFile(s.snapshotPath)` followed by `json.Unmarshal` can find. -/
inductive SnapshotFile where
  | missing
  | unreadable
  | corrupt
  | parsed (snap : SnapshotData)
deriving DecidableEq

/-- What `os.Open(s.walPath)` can find. -/
inductive WalFile where
  | missing
  | unreadable
  | content (bytes : List Nat)
deriving DecidableEq

/-- The store together with the files it owns: `walFile` is the content of the
file behind the append handle, `snapshotFile` the file at `snapshotPath`,
`walBackups` the rotated logs.  `snapshotTrigger` is the capacity-one channel:
`true` when a signal is pending. -/
structure ShardedStore where
  shards : Fin numShards → KeyValueStoreShard
  stats : Statistics
  walFile : List Nat
  walSize : Int
  snapshotTrigger : Bool
  snapshotFile : SnapshotFile
  walBackups : List (List Nat)

inductive StoreError where
  | mkdir
  | snapshotRead
  | walOpen
  | tooLong
  | walAppendOpen
  | walWrite
  | walSync
deriving DecidableEq, Repr

/-! ## Shard router (`getShard`) -/

/-- One step of `fnv.New32a().Write`: xor the byte in, multiply by the prime. -/
def fnvStep (h : Nat) (c : Nat) : Nat := (Nat.xor h (c % 256)) * 16777619 % 2 ^ 32

/-- `h.Sum32()` after `h.Write([]byte(key))`. -/
def fnv32a (key : Key) : Nat := key.foldl fnvStep 2166136261

/-- The index `h.Sum32() % uint32(numShards)`. -/
def shardIndex (key : Key) : Nat := fnv32a key % numShards

/-- The position of the shard `getShard` returns. -/
def getShard (key : Key) : Fin numShards :=
  ⟨shardIndex key, Nat.mod_lt _ (by decide)⟩

/-- The statement `shard.store[key] = value` on the shard of `key`. -/
def install (shards : Fin numShards → KeyValueStoreShard) (key : Key) (value : Value) :
    Fin numShards → KeyValueStoreShard :=
  Function.update shards (getShard key) ((shards (getShard key)).insert key value)

/-! ## Text formats: `%d`, `strconv.ParseInt`, `encoding/base64` -/

/-- Decimal digits of `n`, most significant first, in front of `acc`. -/
def natDigitsAux : Nat → Nat → List Nat → List Nat
  | 0, _, acc => acc
  | fuel + 1, n, acc =>
    if n < 10 then (48 + n) :: acc
    else natDigitsAux fuel (n / 10) ((48 + n % 10) :: acc)

def formatNat (n : Nat) : List Nat := natDigitsAux (n + 1) n []

/-- The verb `%d` on an `int64`. -/
def formatInt : Int → List Nat
  | Int.ofNat n => formatNat n
  | Int.negSucc n => 45 :: formatNat (n + 1)

def parseDigits : List Nat → Nat → Option Nat
  | [], acc => some acc
  | c :: cs, acc => if 48 ≤ c ∧ c ≤ 57 then parseDigits cs (acc * 10 + (c - 48)) else none

/-- `strconv.ParseUint(s, 10, 64)`. -/
def ParseUint (s : List Nat) : Option Nat :=
  if s = [] then none
  else match parseDigits s 0 with
    | some n => if n < 2 ^ 64 then some n else none
    | none => none

/-- `strconv.ParseInt(s, 10, 64)`: optional sign, digits, range check. -/
def ParseInt (s : List Nat) : Option Int :=
  match s with
  | [] => none
  | c :: rest =>
    if c = 43 then
      match ParseUint rest with
      | some un => if un < 2 ^ 63 then some (Int.ofNat un) else none
      | none => none
    else if c = 45 then
      match ParseUint rest with
      | some un => if un ≤ 2 ^ 63 then some (-(Int.ofNat un)) else none
      | none => none
    else
      match ParseUint s with
      | some un => if un < 2 ^ 63 then some (Int.ofNat un) else none
      | none => none

/-- The alphabet of `base64.StdEncoding`. -/
def b64Char (n : Nat) : Nat :=
  if n < 26 then 65 + n
  else if n < 52 then 97 + (n - 26)
  else if n < 62 then 48 + (n - 52)
  else if n = 62 then 43
  else 47

/-- The decode map of `base64.StdEncoding`. -/
def b64Val (c : Nat) : Option Nat :=
  if 65 ≤ c ∧ c ≤ 90 then some (c - 65)
  else if 97 ≤ c ∧ c ≤ 122 then some (c - 71)
  else if 48 ≤ c ∧ c ≤ 57 then some (c + 4)
  else if c = 43 then some 62
  else if c = 47 then some 63
  else none

/-- `base64.StdEncoding.EncodeToString`. -/
def EncodeToString : List Nat → List Nat
  | [] => []
  | [a] => [b64Char (a / 4), b64Char (a % 4 * 16), 61, 61]
  | [a, b] => [b64Char (a / 4), b64Char (a % 4 * 16 + b / 16), b64Char (b % 16 * 4), 61]
  | a :: b :: c :: rest =>
    b64Char (a / 4) :: b64Char (a % 4 * 16 + b / 16) :: b64Char (b % 16 * 4 + c / 64)
      :: b64Char (c % 64) :: EncodeToString rest

/-- The quantum loop of the decoder, on input without line breaks: groups of
four alphabet characters, the last group may end in `=` or `==`, nothing may
follow the padding.  Not strict: the unused low bits of a padded group are
dropped. -/
def decodeQuanta : List Nat → Option (List Nat)
  | [] => some []
  | c0 :: c1 :: c2 :: c3 :: rest =>
    match b64Val c0, b64Val c1 with
    | some v0, some v1 =>
      if c2 = 61 then
        if c3 = 61 ∧ rest = [] then some [(v0 * 4 + v1 / 16) % 256] else none
      else
        match b64Val c2 with
        | none => none
        | some v2 =>
          if c3 = 61 then
            if rest = [] then some [(v0 * 4 + v1 / 16) % 256, (v1 % 16 * 16 + v2 / 4) % 256]
            else none
          else
            match b64Val c3 with
            | none => none
            | some v3 =>
              (decodeQuanta rest).map (fun t =>
                (v0 * 4 + v1 / 16) % 256 :: (v1 % 16 * 16 + v2 / 4) % 256
                  :: (v2 % 4 * 64 + v3) % 256 :: t)
    | _, _ => none
  | _ => none

/-- `base64.StdEncoding.DecodeString`; `none` is a non-nil error.  The decoder
ignores carriage returns and line feeds wherever they stand. -/
def DecodeString (s : List Nat) : Option (List Nat) :=
  decodeQuanta (s.filter (fun c => c ≠ 10 ∧ c ≠ 13))

/-! ## Write-ahead log (`logOperation`) -/

/-- What the environment does during one `logOperation`: the clock reading,
the outcome of `WriteString` (`some n`: an error after `n` bytes reached the
file) and of `Sync`. -/
structure WalOutcome where
  now : Int
  writeErr : Option Nat
  syncFails : Bool
deriving DecidableEq

/-- The line `fmt.Sprintf("%d,%s,%s\n", timestamp, key, encodedValue)`. -/
def walEntry (timestamp : Int) (key : Key) (value : Value) : List Nat :=
  formatInt timestamp ++ 44 :: (key ++ 44 :: (EncodeToString value ++ [10]))

def logOperation (s : ShardedStore) (io : WalOutcome) (key : Key) (value : Value) :
    Option StoreError × ShardedStore :=
  let entry := walEntry io.now key value
  match io.writeErr with
  | some n => (some StoreError.walWrite, { s with walFile := s.walFile ++ entry.take n })
  | none =>
    let s1 := { s with walFile := s.walFile ++ entry }
    if io.syncFails then (some StoreError.walSync, s1)
    else
      let currentSize := wrapInt64 (s1.walSize + entry.length)
      let s2 := { s1 with walSize := currentSize }
      if currentSize > walSizeThreshold then (none, { s2 with snapshotTrigger := true })
      else (none, s2)

/-! ## Request handlers -/

inductive SetResult where
  | ok
  | invalidArgument
  | internal
deriving DecidableEq, Repr

/-- Lines 298-311 of `Set`: read the prior value, install the new one in the
shard of the key, then update the counters. -/
def setInMemory (s : ShardedStore) (key : Key) (value : Value) : ShardedStore :=
  let st := s.stats
  let st1 : Statistics :=
    match (s.shards (getShard key)).lookup key with
    | some oldValue =>
      { st with totalSizeBytes := subU64 st.totalSizeBytes (u64 oldValue.length) }
    | none => { st with totalKeys := addU64 st.totalKeys 1 }
  let st2 := { st1 with
    totalSizeBytes := addU64 st1.totalSizeBytes (u64 value.length)
    setOperations := addU64 st1.setOperations 1 }
  { s with shards := install s.shards key value, stats := st2 }

def Set (s : ShardedStore) (io : WalOutcome) (key : Key) (value : Value) :
    SetResult × ShardedStore :=
  if key.length > MaxKeySize then (SetResult.invalidArgument, s)
  else
    match logOperation s io key value with
    | (some _, s1) => (SetResult.internal, s1)
    | (none, s1) => (SetResult.ok, setInMemory s1 key value)

/-- The handler `Get`: the response `(Value, Found)` and the store with
`getOperations` incremented.  A missing key reads as the nil slice. -/
def Get (s : ShardedStore) (key : Key) : (Value × Bool) × ShardedStore :=
  let s1 := { s with stats := { s.stats with getOperations := addU64 s.stats.getOperations 1 } }
  match (s.shards (getShard key)).lookup key with
  | some value => ((value, true), s1)
  | none => (([], false), s1)

/-- A request of a sequential client. -/
inductive Request where
  | set (io : WalOutcome) (key : Key) (value : Value)
  | get (key : Key)

def Request.apply (s : ShardedStore) : Request → ShardedStore
  | Request.set io key value => (Set s io key value).2
  | Request.get key => (Get s key).2

def runRequests (s : ShardedStore) (rs : List Request) : ShardedStore :=
  rs.foldl Request.apply s

/-- The request never writes `k`. -/
def Request.avoids (k : Key) : Request → Prop
  | Request.set _ key _ => key ≠ k
  | Request.get _ => True

instance (k : Key) (r : Request) : Decidable (r.avoids k) := by
  cases r <;> simp only [Request.avoids] <;> infer_instance

/-! ## Recovery (`recoverStore`, `NewShardedStore`) -/

/-- The helper `dropCR` of `bufio.ScanLines`: drop one trailing carriage return. -/
def dropCR (data : List Nat) : List Nat :=
  if data.getLast? = some 13 then data.dropLast else data

/-- The loop `for scanner.Scan()` with `bufio.ScanLines` on a buffer of
`maxLineSize` bytes that cannot grow (`scanner.Buffer(buf, maxLineSize)`): the
tokens delivered, in order, and `scanner.Err()`.  `cur` holds the bytes of the
line being read.  A line and its line feed have to fit in the buffer together,
and so has an unterminated last line before the end of file is seen: a line of
`maxLineSize` bytes or more ends the scan with `ErrTooLong`. -/
def scanLinesAux : List Nat → List Nat → List (List Nat) × Option StoreError
  | cur, [] =>
    if cur = [] then ([], none)
    else if maxLineSize ≤ cur.length then ([], some StoreError.tooLong)
    else ([dropCR cur], none)
  | cur, b :: rest =>
    if b = 10 then
      if maxLineSize ≤ cur.length then ([], some StoreError.tooLong)
      else (dropCR cur :: (scanLinesAux [] rest).1, (scanLinesAux [] rest).2)
    else scanLinesAux (cur ++ [b]) rest

def scanLines (data : List Nat) : List (List Nat) × Option StoreError :=
  scanLinesAux [] data

/-- The text before the first `sep` and the text after it. -/
def cutAt (sep : Nat) : List Nat → Option (List Nat × List Nat)
  | [] => none
  | c :: cs =>
    if c = sep then some ([], cs)
    else match cutAt sep cs with
      | some (a, b) => some (c :: a, b)
      | none => none

/-- `strings.SplitN(s, ",", n)` for `n ≥ 0`: at most `n` parts, the last one
the unsplit rest. -/
def SplitN : Nat → List Nat → List (List Nat)
  | 0, _ => []
  | 1, s => [s]
  | n + 2, s =>
    match cutAt 44 s with
    | some (a, b) => a :: SplitN (n + 1) b
    | none => [s]

/-- One iteration of the replay loop, on the token `line`. -/
def replayLine (snapshotTimestamp : Int) (shards : Fin numShards → KeyValueStoreShard)
    (line : List Nat) : Fin numShards → KeyValueStoreShard :=
  if line = [] then shards
  else
    match SplitN 3 line with
    | [p0, p1, p2] =>
      match ParseInt p0 with
      | none => shards
      | some walTimestamp =>
        if walTimestamp > snapshotTimestamp then
          match DecodeString p2 with
          | none => shards
          | some valueBytes => install shards p1 valueBytes
        else shards
    | _ => shards

/-- The loop `for k, v := range snap.Data`. -/
def loadSnapshot (shards : Fin numShards → KeyValueStoreShard) (snap : SnapshotData) :
    Fin numShards → KeyValueStoreShard :=
  snap.Data.entries.foldl (fun sh e => install sh e.1 e.2) shards

/-- The method `recoverStore`: the store afterwards and the error returned. -/
def recoverStore (s : ShardedStore) (snapshotFile : SnapshotFile) (wal : WalFile) :
    ShardedStore × Option StoreError :=
  match snapshotFile with
  | SnapshotFile.unreadable => (s, some StoreError.snapshotRead)
  | _ =>
    let shards1 := match snapshotFile with
      | SnapshotFile.parsed snap => loadSnapshot s.shards snap
      | _ => s.shards
    let snapshotTimestamp : Int := match snapshotFile with
      | SnapshotFile.parsed snap => snap.Timestamp
      | _ => 0
    match wal with
    | WalFile.missing => ({ s with shards := shards1 }, none)
    | WalFile.unreadable => ({ s with shards := shards1 }, some StoreError.walOpen)
    | WalFile.content bytes =>
      ({ s with shards := (scanLines bytes).1.foldl (replayLine snapshotTimestamp) shards1 },
        (scanLines bytes).2)

/-- The data directory at start-up and the outcome of the system calls of
`NewShardedStore`. -/
structure Disk where
  mkdirFails : Bool
  snapshot : SnapshotFile
  wal : WalFile
  openFails : Bool
  statFails : Bool

def emptyShards : Fin numShards → KeyValueStoreShard := fun _ => ∅

def NewShardedStore (d : Disk) : Except StoreError ShardedStore :=
  if d.mkdirFails then Except.error StoreError.mkdir
  else
    let store : ShardedStore :=
      { shards := emptyShards
        stats := ⟨0, 0, 0, 0, 0⟩
        walFile := []
        walSize := 0
        snapshotTrigger := false
        snapshotFile := d.snapshot
        walBackups := [] }
    match recoverStore store d.snapshot d.wal with
    | (_, some err) => Except.error err
    | (store1, none) =>
      if d.openFails ∨ d.statFails then Except.error StoreError.walAppendOpen
      else
        let file := match d.wal with
          | WalFile.content bytes => bytes
          | _ => []
        Except.ok { store1 with walFile := file, walSize := file.length }

/-- A fresh data directory: no snapshot, no log, every system call succeeds. -/
def freshDisk : Disk := ⟨false, SnapshotFile.missing, WalFile.missing, false, false⟩

/-- The store that `NewShardedStore` builds on a fresh data directory. -/
def emptyStore : ShardedStore :=
  { shards := emptyShards
    stats := ⟨0, 0, 0, 0, 0⟩
    walFile := []
    walSize := 0
    snapshotTrigger := false
    snapshotFile := SnapshotFile.missing
    walBackups := [] }

/-- The files a process leaves behind when it stops, as the next start sees them. -/
def diskOf (s : ShardedStore) : Disk :=
  ⟨false, s.snapshotFile, WalFile.content s.walFile, false, false⟩

/-! ## Prefix scan (`GetPrefixStream`) -/

/-- What the worker of one shard puts on the channel. -/
def prefixWorker (shard : KeyValueStoreShard) (pfx : Key) : List (Key × Value) :=
  (shard.entries.filter (fun e => pfx.isPrefixOf e.1)).map (fun e => (e.1, e.2))

/-- The pairs on `resultsChan` when the workers run in the order of their
shards.  The arrival order depends on the scheduler and on map iteration; the
pairs are compared as a multiset. -/
def prefixResults (s : ShardedStore) (pfx : Key) : List (Key × Value) :=
  (List.finRange numShards).flatMap (fun i => prefixWorker (s.shards i) pfx)

/-- The handler `GetPrefixStream`: the pairs sent on the stream, whether an
error is returned, and the store afterwards.  `sendFailsAt = some n` makes the
send of pair number `n` fail. -/
def GetPrefixStream (s : ShardedStore) (pfx : Key) (sendFailsAt : Option Nat) :
    (List (Key × Value) × Bool) × ShardedStore :=
  let results := prefixResults s pfx
  match sendFailsAt with
  | some n =>
    if n < results.length then ((results.take n, true), s)
    else ((results, false),
      { s with stats := { s.stats with
          prefixOperations := addU64 s.stats.prefixOperations 1 } })
  | none => ((results, false),
      { s with stats := { s.stats with
          prefixOperations := addU64 s.stats.prefixOperations 1 } })

/-! ## Snapshots (`takeSnapshot`) -/

/-- The inner loop `for k, v := range shard.store { snapshotMap[k] = v }`. -/
def copyShard (snapshotMap : GoMap) (shard : KeyValueStoreShard) : GoMap :=
  shard.entries.foldl (fun m e => m.insert e.1 e.2) snapshotMap

/-- Outcome of the system calls of one `takeSnapshot`. -/
structure SnapshotOutcome where
  marshalFails : Bool
  writeFails : Bool
  renameFails : Bool
  backupRenameFails : Bool
deriving DecidableEq

/-- A continuation byte of UTF-8. -/
def isCont (b : Nat) : Bool := decide (128 ≤ b ∧ b ≤ 191)

/-- The second byte that may follow the lead byte `b0` of a sequence of three
or four bytes (no overlong form, no surrogate, nothing above U+10FFFF). -/
def secondByteOk (b0 b1 : Nat) : Bool :=
  if b0 = 224 then decide (160 ≤ b1 ∧ b1 ≤ 191)
  else if b0 = 237 then decide (128 ≤ b1 ∧ b1 ≤ 159)
  else if b0 = 240 then decide (144 ≤ b1 ∧ b1 ≤ 191)
  else if b0 = 244 then decide (128 ≤ b1 ∧ b1 ≤ 143)
  else isCont b1

/-- Width of the UTF-8 sequence at the head of `s`, or `0` when there is none
and `utf8.DecodeRuneInString` returns `(RuneError, 1)`. -/
def runeLen : List Nat → Nat
  | [] => 0
  | b0 :: rest =>
    if b0 < 128 then 1
    else if 194 ≤ b0 ∧ b0 ≤ 223 then
      match rest with
      | b1 :: _ => if isCont b1 then 2 else 0
      | _ => 0
    else if 224 ≤ b0 ∧ b0 ≤ 239 then
      match rest with
      | b1 :: b2 :: _ => if secondByteOk b0 b1 ∧ isCont b2 then 3 else 0
      | _ => 0
    else if 240 ≤ b0 ∧ b0 ≤ 244 then
      match rest with
      | b1 :: b2 :: b3 :: _ =>
        if secondByteOk b0 b1 ∧ isCont b2 ∧ isCont b3 then 4 else 0
      | _ => 0
    else 0

/-- A Go string after `json.Marshal` and `json.Unmarshal`: the encoder writes
every byte that starts no UTF-8 sequence as the escape of U+FFFD, which the
decoder reads as the three bytes `EF BF BD`; every other escape decodes to
what was encoded.  The fuel is the length of the string. -/
def jsonStringAux : Nat → List Nat → List Nat
  | 0, _ => []
  | _ + 1, [] => []
  | fuel + 1, b :: rest =>
    match runeLen (b :: rest) with
    | 0 => 239 :: 191 :: 189 :: jsonStringAux fuel rest
    | n + 1 => b :: (rest.take n ++ jsonStringAux fuel (rest.drop n))

def jsonString (s : List Nat) : List Nat := jsonStringAux s.length s

/-- The test `utf8.ValidString`, with the length of the string as fuel. -/
def utf8ValidAux : Nat → List Nat → Bool
  | 0, s => s.isEmpty
  | _ + 1, [] => true
  | fuel + 1, b :: rest =>
    match runeLen (b :: rest) with
    | 0 => false
    | n + 1 => utf8ValidAux fuel (rest.drop n)

def utf8Valid (s : List Nat) : Bool := utf8ValidAux s.length s

/-- The map `Data` after `json.Marshal` and `json.Unmarshal`.  The encoder
writes the entries in the bytewise order of their keys, each key as a JSON
string; the decoder assigns them in that order, so of two keys that become the
same string the later one keeps its value.  Values are written in base64 and
come back as they were. -/
def jsonData (data : GoMap) : GoMap :=
  (data.entries.insertionSort (fun a b => a.1 ≤ b.1)).foldl
    (fun m e => m.insert (jsonString e.1) e.2) ∅

/-- Lines 242-258: serialise, write the temporary file, rename it over the
snapshot.  On an error the attempt is abandoned and `false` is returned.  The
file is kept as what `json.Unmarshal` on line 129 reads back from the bytes
that `json.Marshal` on line 242 produced. -/
def writeSnapshot (s : ShardedStore) (io : SnapshotOutcome) (snapshot : SnapshotData) :
    Bool × ShardedStore :=
  if io.marshalFails ∨ io.writeFails ∨ io.renameFails then (false, s)
  else (true, { s with
    snapshotFile := SnapshotFile.parsed ⟨snapshot.Timestamp, jsonData snapshot.Data⟩ })

/-- Lines 264-277: close the log, rename it to a backup (an error of this
rename is not checked), open the log path again for appending.  When the new
log cannot be opened the process ends (`log.Fatalf`); that outcome is not a
state of the server and is left out. -/
def rotateWal (s : ShardedStore) (io : SnapshotOutcome) : ShardedStore :=
  if io.backupRenameFails then { s with walSize := 0 }
  else { s with walFile := [], walSize := 0, walBackups := s.walFile :: s.walBackups }

/-- The method `takeSnapshot` without concurrent requests; `now` is the
reading of `time.Now().UnixNano()` on line 241. -/
def takeSnapshot (s : ShardedStore) (io : SnapshotOutcome) (now : Int) : ShardedStore :=
  let snapshotMap := (List.finRange numShards).foldl (fun m i => copyShard m (s.shards i)) ∅
  let snapshot : SnapshotData := ⟨now, snapshotMap⟩
  match writeSnapshot s io snapshot with
  | (false, s1) => s1
  | (true, s1) => rotateWal s1 io

/-! ## Interleaving of one `Set` with one `takeSnapshot` -/

/-- Progress of a `Set(key, value)` call: `timestamp` is set once line 196 has
run, `logged` once the record is written and flushed, `done` once the value is
in its shard and the call has returned success. -/
structure SetTask where
  key : Key
  value : Value
  timestamp : Option Int
  logged : Bool
  done : Bool

/-- Progress of a `takeSnapshot` call: `next` is the shard the copy loop reads
next, `timestamp` is set once line 241 has run. -/
structure SnapshotTask where
  next : Nat
  snapshotMap : GoMap
  timestamp : Option Int
  written : Bool
  rotated : Bool

structure System where
  store : ShardedStore
  clock : Int
  setTask : SetTask
  snapTask : SnapshotTask

/-- The atomic steps: each one runs under one lock or reads the clock once. -/
inductive Event where
  | tick (d : Nat)
  | setStamp
  | setAppend
  | setInstall
  | snapCopy
  | snapStamp
  | snapWrite
  | snapRotate
deriving DecidableEq

/-- One step of the system; `none` when the step is not the next one of its task. -/
def System.step (σ : System) : Event → Option System
  | Event.tick d => some { σ with clock := σ.clock + d }
  | Event.setStamp =>
    match σ.setTask.timestamp with
    | none => some { σ with setTask := { σ.setTask with timestamp := some σ.clock } }
    | some _ => none
  | Event.setAppend =>
    match σ.setTask.timestamp, σ.setTask.logged with
    | some ts, false =>
      some { σ with
        store := (logOperation σ.store ⟨ts, none, false⟩ σ.setTask.key σ.setTask.value).2
        setTask := { σ.setTask with logged := true } }
    | _, _ => none
  | Event.setInstall =>
    if σ.setTask.logged ∧ ¬ σ.setTask.done then
      some { σ with
        store := setInMemory σ.store σ.setTask.key σ.setTask.value
        setTask := { σ.setTask with done := true } }
    else none
  | Event.snapCopy =>
    if h : σ.snapTask.next < numShards then
      some { σ with snapTask := { σ.snapTask with
        next := σ.snapTask.next + 1
        snapshotMap := copyShard σ.snapTask.snapshotMap (σ.store.shards ⟨σ.snapTask.next, h⟩) } }
    else none
  | Event.snapStamp =>
    if σ.snapTask.next = numShards ∧ σ.snapTask.timestamp = none then
      some { σ with snapTask := { σ.snapTask with timestamp := some σ.clock } }
    else none
  | Event.snapWrite =>
    match σ.snapTask.timestamp, σ.snapTask.written with
    | some ts, false =>
      some { σ with
        store := (writeSnapshot σ.store ⟨false, false, false, false⟩
          ⟨ts, σ.snapTask.snapshotMap⟩).2
        snapTask := { σ.snapTask with written := true } }
    | _, _ => none
  | Event.snapRotate =>
    if σ.snapTask.written ∧ ¬ σ.snapTask.rotated then
      some { σ with
        store := rotateWal σ.store ⟨false, false, false, false⟩
        snapTask := { σ.snapTask with rotated := true } }
    else none

def System.run (σ : System) : List Event → Option System
  | [] => some σ
  | e :: es =>
    match σ.step e with
    | some σ1 => σ1.run es
    | none => none

/-- A `Set(key, value)` and a `takeSnapshot` about to start on store `s`. -/
def System.start (s : ShardedStore) (clock : Int) (key : Key) (value : Value) : System :=
  { store := s
    clock := clock
    setTask := ⟨key, value, none, false, false⟩
    snapTask := ⟨0, ∅, none, false, false⟩ }

/-! ## Reference definitions, written from the specification -/

/-- All the fields of `s` between occurrences of `sep`. -/
def fields (sep : Nat) : List Nat → List (List Nat)
  | [] => [[]]
  | c :: cs =>
    if c = sep then [] :: fields sep cs
    else match fields sep cs with
      | f :: fs => (c :: f) :: fs
      | [] => [[c]]

structure WalRecord where
  ts : Int
  key : Key
  value : Value
deriving DecidableEq

/-- A well-formed log line: three comma-separated fields, a base-10 integer
timestamp, a valid base64 value. -/
def wellFormedLine (line : List Nat) : Option WalRecord :=
  match fields 44 line with
  | [f0, f1, f2] =>
    match ParseInt f0, DecodeString f2 with
    | some ts, some v => some ⟨ts, f1, v⟩
    | _, _ => none
  | _ => none

def snapshotTs : Option SnapshotData → Int
  | none => 0
  | some snap => snap.Timestamp

/-- The well-formed records of a log, in file order, newer than `ts`. -/
def recordsAfter (ts : Int) (wal : List Nat) : List WalRecord :=
  ((fields 10 wal).filterMap wellFormedLine).filter (fun r => decide (r.ts > ts))

/-- The installs that the replay loop makes for a list of records, one after
the other. -/
def applyRecords (shards : Fin numShards → KeyValueStoreShard) (rs : List WalRecord) :
    Fin numShards → KeyValueStoreShard :=
  rs.foldl (fun sh r => install sh r.key r.value) shards

/-- The snapshot file that holds `snapshot`. -/
def snapshotFileOf : Option SnapshotData → SnapshotFile
  | none => SnapshotFile.missing
  | some snap => SnapshotFile.parsed snap

/-- Sum of the shard sizes. -/
def shardSizeSum (shards : Fin numShards → KeyValueStoreShard) : Nat :=
  ∑ i, (shards i).entries.length

/-- Sum of the lengths of the values stored. -/
def valueBytesSum (shards : Fin numShards → KeyValueStoreShard) : Nat :=
  ∑ i, ((shards i).entries.map (fun e => e.2.length)).sum

/-- The value the last `Set` of `k` in `ops` wrote. -/
def lastValue (k : Key) : List (Key × Value) → Option Value
  | [] => none
  | (k1, v) :: ops =>
    match lastValue k ops with
    | some w => some w
    | none => if k1 = k then some v else none

/-- What the store holds under `k` after recovery, as the specification
defines it: the value of the last well-formed line of the log, in file order,
that is newer than the snapshot and has the key `k`; without such a line, the
value the snapshot holds under `k`. -/
def referenceState (snapshot : Option SnapshotData) (wal : List Nat) (k : Key) :
    Option Value :=
  match lastValue k
    ((recordsAfter (snapshotTs snapshot) wal).map (fun r => (r.key, r.value))) with
  | some v => some v
  | none =>
    match snapshot with
    | some snap => snap.Data.lookup k
    | none => none

/-- Invariant I5 as the specification words it: the records newer than the
snapshot taken in the order of their timestamps, the last one with the key `k`
giving the value; without such a record, the value of the snapshot. -/
def timestampOrderState (snapshot : Option SnapshotData) (wal : List Nat) (k : Key) :
    Option Value :=
  match lastValue k
    (((recordsAfter (snapshotTs snapshot) wal).insertionSort (fun a b => a.ts ≤ b.ts)).map
      (fun r => (r.key, r.value))) with
  | some v => some v
  | none =>
    match snapshot with
    | some snap => snap.Data.lookup k
    | none => none

/-- The response of `Get` for a key that holds `v`, or holds nothing. -/
def getResponse : Option Value → Value × Bool
  | some v => (v, true)
  | none => ([], false)

/-- A run of `Set` calls on `s`, one `WalOutcome` each. -/
def runSets (s : ShardedStore) : List (WalOutcome × Key × Value) → ShardedStore
  | [] => s
  | (io, k, v) :: ops => runSets (Set s io k v).2 ops

/-- Every call of the run returns success. -/
def allSucceed (s : ShardedStore) : List (WalOutcome × Key × Value) → Prop
  | [] => True
  | (io, k, v) :: ops => (Set s io k v).1 = SetResult.ok ∧ allSucceed (Set s io k v).2 ops

/-- The states the server passes through: start-up, then its handlers and
snapshots in any order. -/
inductive Reachable : ShardedStore → Prop where
  | start (d : Disk) (s : ShardedStore) : NewShardedStore d = Except.ok s → Reachable s
  | set (s : ShardedStore) (io : WalOutcome) (k : Key) (v : Value) :
      Reachable s → Reachable (Set s io k v).2
  | get (s : ShardedStore) (k : Key) : Reachable s → Reachable (Get s k).2
  | scan (s : ShardedStore) (pfx : Key) (f : Option Nat) :
      Reachable s → Reachable (GetPrefixStream s pfx f).2
  | snapshot (s : ShardedStore) (io : SnapshotOutcome) (now : Int) :
      Reachable s → Reachable (takeSnapshot s io now)

/-- The shards after the install of the record of `line`, when the line is
well-formed and newer than `ts`; the shards unchanged otherwise. -/
def overlayLine (ts : Int) (shards : Fin numShards → KeyValueStoreShard) (line : List Nat) :
    Fin numShards → KeyValueStoreShard :=
  match wellFormedLine line with
  | some r => if r.ts > ts then install shards r.key r.value else shards
  | none => shards

/-- The shards with which the replay loop starts: `shards` with the entries of
the snapshot, if there is one, installed. -/
def startShards (shards : Fin numShards → KeyValueStoreShard) :
    Option SnapshotData → (Fin numShards → KeyValueStoreShard)
  | none => shards
  | some snap => loadSnapshot shards snap

/-- The record of `walEntry` without its line feed. -/
def walLine (timestamp : Int) (key : Key) (value : Value) : List Nat :=
  formatInt timestamp ++ 44 :: (key ++ 44 :: EncodeToString value)

/-- A log whose first line has `maxLineSize + 1` bytes and no comma, followed
by the record `1,k,QQ==`. -/
def longLineWal : List Nat :=
  List.replicate (maxLineSize + 1) 65 ++ 10 :: ascii "1,k,QQ==\n"

/-- A value of 7.5 MiB, below the message cap of 10 MiB. -/
def largeValue : Value := List.replicate 7864320 0

/-- Two records of the same key whose timestamps decrease along the file. -/
def unorderedWal : List Nat := ascii "5,k,QQ==\n3,k,Qg==\n"

/-- A snapshot taken at timestamp 4 that holds the value `01` under `a`. -/
def snapshotA : SnapshotData := ⟨4, AList.singleton (ascii "a") [1]⟩

/-- A log with a key written twice, a record older than `snapshotA`, a line
with two fields, a line with a bad timestamp, a line with a bad base64 value
and an unterminated last record. -/
def mixedWal : List Nat :=
  ascii "5,k,QQ==\n3,a,Qg==\n6,k,Qg==\n1,j\nx,y,eg==\n8,b,Q\n7,z,QUJD"

/-- The calls of the first end-to-end scenario, followed by a second key and
by a key made of a two-byte and a three-byte character. -/
def scenarioSets : List (WalOutcome × Key × Value) :=
  [(⟨1, none, false⟩, ascii "alpha", ascii "1"), (⟨2, none, false⟩, ascii "alpha", ascii "2"),
    (⟨3, none, false⟩, ascii "x", ascii "hello"),
    (⟨4, none, false⟩, [195, 169, 226, 130, 172], ascii "7")]

/-- A log whose timestamps increase along the file. -/
def orderedWal : List Nat := ascii "3,a,Qg==\n5,k,QQ==\n6,k,Qg==\n"

/-- Stop the process, start it again on the files it left, and read `key`;
`none` when the start fails. -/
def restartGet (s : ShardedStore) (key : Key) : Option (Value × Bool) :=
  match NewShardedStore (diskOf s) with
  | Except.ok s1 => some (Get s1 key).1
  | Except.error _ => none

/-- A schedule in which `Set` reads the clock after the copy loop of
`takeSnapshot` has passed all shards and before `takeSnapshot` reads the clock
on line 241; every step of both calls runs. -/
def lateStampSchedule : List Event :=
  List.replicate 32 Event.snapCopy ++
    [Event.setStamp, Event.tick 1, Event.snapStamp, Event.setAppend, Event.setInstall,
      Event.snapWrite, Event.snapRotate]

/-- The same interleaving, stopped before the log is rotated. -/
def lateStampNoRotate : List Event :=
  List.replicate 32 Event.snapCopy ++
    [Event.setStamp, Event.tick 1, Event.snapStamp, Event.setAppend, Event.setInstall,
      Event.snapWrite]

/-- A data directory with no snapshot whose log ends in the record `7,z,QUJD`
without its line feed, as a write cut short leaves it. -/
def tornDisk : Disk :=
  ⟨false, SnapshotFile.missing, WalFile.content (ascii "7,z,QUJD"), false, false⟩

/-- A data directory with no snapshot and a log holding the record `1,k,QQ==`. -/
def oneRecordDisk : Disk :=
  ⟨false, SnapshotFile.missing, WalFile.content (ascii "1,k,QQ==\n"), false, false⟩

/-- Every key sits in the shard the router gives it. -/
def Placed (shards : Fin numShards → KeyValueStoreShard) : Prop :=
  ∀ (i : Fin numShards) (k : Key), k ∈ shards i → getShard k = i

/-- Invariant I3: the counters agree with the shards, as `uint64` values. -/
def Coherent (s : ShardedStore) : Prop :=
  s.stats.totalKeys = u64 (shardSizeSum s.shards) ∧
  s.stats.totalSizeBytes = u64 (valueBytesSum s.shards)

/-- The keys of all shards, shard after shard. -/
def allKeys (shards : Fin numShards → KeyValueStoreShard) : List Key :=
  (List.finRange numShards).flatMap (fun i => (shards i).keys)

/-! ## Lemmas: shards under `Set` and `Get` -/

theorem logOperation_shards (s : ShardedStore) (io : WalOutcome) (key : Key) (value : Value) :
    (logOperation s io key value).2.shards = s.shards ∧
    (logOperation s io key value).2.stats = s.stats := by
  unfold logOperation
  cases io.writeErr with
  | some n => exact ⟨rfl, rfl⟩
  | none =>
    simp only []
    split_ifs <;> exact ⟨rfl, rfl⟩

theorem logOperation_result (s : ShardedStore) (io : WalOutcome) (key : Key) (value : Value) :
    ((logOperation s io key value).1 = none ↔ io.writeErr = none ∧ io.syncFails = false) ∧
    ((logOperation s io key value).1 = none →
      (logOperation s io key value).2.walFile = s.walFile ++ walEntry io.now key value) := by
  cases hw : io.writeErr with
  | some n => simp [logOperation, hw]
  | none =>
    cases hs : io.syncFails with
    | true => simp [logOperation, hw, hs]
    | false =>
      simp only [logOperation, hw, hs, Bool.false_eq_true, if_false]
      split_ifs <;> simp

theorem install_lookup_self (shards : Fin numShards → KeyValueStoreShard) (k : Key) (v : Value) :
    (install shards k v (getShard k)).lookup k = some v := by
  simp [install]

theorem install_lookup_ne (shards : Fin numShards → KeyValueStoreShard) (k k1 : Key) (v : Value)
    (h : k1 ≠ k) (i : Fin numShards) :
    (install shards k1 v i).lookup k = (shards i).lookup k := by
  unfold install
  by_cases hi : i = getShard k1
  · subst hi
    simp [AList.lookup_insert_ne (Ne.symm h)]
  · simp [Function.update_noteq hi]

theorem Set_invalid (s : ShardedStore) (io : WalOutcome) (key : Key) (value : Value)
    (h : key.length > MaxKeySize) : Set s io key value = (SetResult.invalidArgument, s) := by
  simp [Set, h]

theorem Set_internal (s : ShardedStore) (io : WalOutcome) (key : Key) (value : Value)
    (h : ¬ key.length > MaxKeySize) (e : StoreError)
    (hl : (logOperation s io key value).1 = some e) :
    Set s io key value = (SetResult.internal, (logOperation s io key value).2) := by
  rcases hlog : logOperation s io key value with ⟨r, s1⟩
  rw [hlog] at hl
  simp only at hl
  subst hl
  simp [Set, h, hlog]

theorem Set_ok (s : ShardedStore) (io : WalOutcome) (key : Key) (value : Value)
    (h : ¬ key.length > MaxKeySize) (hl : (logOperation s io key value).1 = none) :
    Set s io key value =
      (SetResult.ok, setInMemory (logOperation s io key value).2 key value) := by
  rcases hlog : logOperation s io key value with ⟨r, s1⟩
  rw [hlog] at hl
  simp only at hl
  subst hl
  simp [Set, h, hlog]

/-- The three outcomes of `Set`. -/
theorem Set_cases (s : ShardedStore) (io : WalOutcome) (key : Key) (value : Value) :
    (key.length > MaxKeySize ∧ Set s io key value = (SetResult.invalidArgument, s)) ∨
    (¬ key.length > MaxKeySize ∧ (logOperation s io key value).1 ≠ none ∧
      Set s io key value = (SetResult.internal, (logOperation s io key value).2)) ∨
    (¬ key.length > MaxKeySize ∧ (logOperation s io key value).1 = none ∧
      Set s io key value =
        (SetResult.ok, setInMemory (logOperation s io key value).2 key value)) := by
  by_cases h : key.length > MaxKeySize
  · exact Or.inl ⟨h, Set_invalid s io key value h⟩
  · cases hl : (logOperation s io key value).1 with
    | none => exact Or.inr (Or.inr ⟨h, rfl, Set_ok s io key value h hl⟩)
    | some e =>
      exact Or.inr (Or.inl ⟨h, by simp, Set_internal s io key value h e hl⟩)

theorem Set_shards (s : ShardedStore) (io : WalOutcome) (key : Key) (value : Value) :
    (Set s io key value).2.shards =
      if (Set s io key value).1 = SetResult.ok then install s.shards key value else s.shards := by
  rcases Set_cases s io key value with ⟨_, h⟩ | ⟨_, _, h⟩ | ⟨_, _, h⟩
  · rw [h]; simp
  · rw [h]; simp [(logOperation_shards s io key value).1]
  · rw [h]; simp [setInMemory, (logOperation_shards s io key value).1]

theorem Get_shards (s : ShardedStore) (key : Key) : (Get s key).2.shards = s.shards := by
  unfold Get
  split <;> rfl

theorem Get_fst (s : ShardedStore) (key : Key) :
    (Get s key).1 = match (s.shards (getShard key)).lookup key with
      | some value => (value, true)
      | none => ([], false) := by
  unfold Get
  split <;> simp_all

theorem runRequests_lookup (k : Key) (rs : List Request) :
    ∀ s : ShardedStore, (∀ r ∈ rs, r.avoids k) →
      ((runRequests s rs).shards (getShard k)).lookup k = (s.shards (getShard k)).lookup k := by
  induction rs with
  | nil => intro s _; rfl
  | cons r rs ih =>
    intro s h
    have hr := h r (List.mem_cons_self r rs)
    have hrs : ∀ r1 ∈ rs, r1.avoids k := fun r1 h1 => h r1 (List.mem_cons_of_mem r h1)
    show ((runRequests (Request.apply s r) rs).shards (getShard k)).lookup k = _
    rw [ih _ hrs]
    cases r with
    | get key => simp only [Request.apply, Get_shards]
    | set io key value =>
      simp only [Request.apply, Set_shards]
      split_ifs
      · exact install_lookup_ne s.shards k key value hr (getShard k)
      · rfl

/-! ## C1: Set/Get round trip -/

/-- C1. For every store state `s`, key `k` and value `v`: if `Set(k, v)` returns
success then, after any further sequence `rs` of `Get` calls and of `Set` calls
on keys other than `k`, `Get(k)` returns `(v, true)`.  A successful `Set` has a
key of at most 128 bytes, so no bound on `k` is assumed. -/
theorem Set_then_Get (s : ShardedStore) (io : WalOutcome) (k : Key) (v : Value) (rs : List Request)
    (hset : (Set s io k v).1 = SetResult.ok) (hrs : ∀ r ∈ rs, r.avoids k) :
    (Get (runRequests (Set s io k v).2 rs) k).1 = (v, true) := by
  rw [Get_fst, runRequests_lookup k rs _ hrs, Set_shards, if_pos hset, install_lookup_self]

/-- C1 at a value with a NUL byte, followed by a `Get`, a `Set` of another key
and a rejected `Set`. -/
theorem Set_then_Get_witness :
    (Get (runRequests (Set emptyStore ⟨5, none, false⟩ (ascii "alpha") [0, 10, 44]).2
      [Request.get (ascii "alpha"), Request.set ⟨6, none, false⟩ (ascii "beta") [],
        Request.set ⟨7, none, true⟩ (ascii "gamma") [1]]) (ascii "alpha")).1
      = ([0, 10, 44], true) :=
  Set_then_Get emptyStore ⟨5, none, false⟩ (ascii "alpha") [0, 10, 44]
    [Request.get (ascii "alpha"), Request.set ⟨6, none, false⟩ (ascii "beta") [],
      Request.set ⟨7, none, true⟩ (ascii "gamma") [1]] (by decide) (by decide)

/-! ## C7: key-length rejection -/

/-- C7. `Set` returns InvalidArgument if and only if the key is longer than 128
bytes, and a rejected `Set` leaves the whole store as it was: shards,
counters, log file and log size. -/
theorem Set_invalidArgument_iff (s : ShardedStore) (io : WalOutcome) (key : Key) (value : Value) :
    ((Set s io key value).1 = SetResult.invalidArgument ↔ 128 < key.length) ∧
    ((Set s io key value).1 = SetResult.invalidArgument → (Set s io key value).2 = s) := by
  rcases Set_cases s io key value with ⟨hk, h⟩ | ⟨hk, _, h⟩ | ⟨hk, _, h⟩
  · rw [h]; exact ⟨⟨fun _ => hk, fun _ => rfl⟩, fun _ => rfl⟩
  · rw [h]
    refine ⟨⟨fun h1 => by simp at h1, fun h1 => absurd h1 hk⟩, fun h1 => by simp at h1⟩
  · rw [h]
    refine ⟨⟨fun h1 => by simp at h1, fun h1 => absurd h1 hk⟩, fun h1 => by simp at h1⟩

/-- C7 at a key of 129 bytes (rejected, store unchanged) and of 128 bytes
(not rejected). -/
theorem Set_invalidArgument_witness :
    (Set emptyStore ⟨1, none, false⟩ (List.replicate 129 97) [118]).2 = emptyStore ∧
    (Set emptyStore ⟨1, none, false⟩ (List.replicate 128 97) [118]).1 ≠
      SetResult.invalidArgument :=
  ⟨(Set_invalidArgument_iff emptyStore ⟨1, none, false⟩ (List.replicate 129 97) [118]).2
      (by simp [Set, MaxKeySize]),
    fun h => absurd
      ((Set_invalidArgument_iff emptyStore ⟨1, none, false⟩ (List.replicate 128 97) [118]).1.1 h)
      (by simp)⟩

/-! ## C8: a failed log write leaves memory untouched -/

/-- C8. For a key the length check lets through: if the append (`WriteString`)
or the `Sync` inside `logOperation` fails, `Set` returns Internal and shards and
counters are unchanged.  Conversely, for every key, when `Set` changes a shard
or a counter, `logOperation` has returned success and the record of the call is
the new tail of the log file. -/
theorem Set_wal_failure_atomic (s : ShardedStore) (io : WalOutcome) (key : Key) (value : Value) :
    (key.length ≤ 128 → (io.writeErr ≠ none ∨ io.syncFails = true) →
      (Set s io key value).1 = SetResult.internal ∧
      (Set s io key value).2.shards = s.shards ∧
      (Set s io key value).2.stats = s.stats) ∧
    (((Set s io key value).2.shards ≠ s.shards ∨ (Set s io key value).2.stats ≠ s.stats) →
      (logOperation s io key value).1 = none ∧
      (Set s io key value).1 = SetResult.ok ∧
      (Set s io key value).2.walFile = s.walFile ++ walEntry io.now key value) := by
  have hres := logOperation_result s io key value
  have hsh := logOperation_shards s io key value
  rcases Set_cases s io key value with ⟨hk, h⟩ | ⟨hk, hl, h⟩ | ⟨hk, hl, h⟩
  · rw [h]
    refine ⟨fun h1 _ => absurd hk (by simp only [MaxKeySize]; omega), fun h1 => ?_⟩
    simp at h1
  · rw [h]
    refine ⟨fun _ _ => ⟨rfl, hsh.1, hsh.2⟩, fun h1 => ?_⟩
    rcases h1 with h1 | h1
    · exact absurd hsh.1 h1
    · exact absurd hsh.2 h1
  · rw [h]
    refine ⟨fun _ hio => ?_, fun _ => ⟨hl, rfl, ?_⟩⟩
    · have := hres.1.1 hl
      rcases hio with hio | hio
      · exact absurd this.1 hio
      · rw [this.2] at hio; cases hio
    · show (setInMemory _ key value).walFile = _
      simp only [setInMemory]
      exact hres.2 hl

/-- C8 at a failing `Sync`: the call returns Internal and the empty store keeps
its shards and counters. -/
theorem Set_wal_failure_witness :
    (Set emptyStore ⟨1, none, true⟩ (ascii "k") (ascii "v")).1 = SetResult.internal ∧
    (Set emptyStore ⟨1, none, true⟩ (ascii "k") (ascii "v")).2.shards = emptyStore.shards ∧
    (Set emptyStore ⟨1, none, true⟩ (ascii "k") (ascii "v")).2.stats = emptyStore.stats :=
  (Set_wal_failure_atomic emptyStore ⟨1, none, true⟩ (ascii "k") (ascii "v")).1
    (by decide) (Or.inr rfl)

/-! ## Lemmas: decimal integers -/

theorem natDigitsAux_eq (n : Nat) :
    ∀ f1 f2 acc, n < f1 → n < f2 → natDigitsAux f1 n acc = natDigitsAux f2 n [] ++ acc := by
  induction n using Nat.strong_induction_on with
  | _ n ih =>
    intro f1 f2 acc h1 h2
    cases f1 with
    | zero => omega
    | succ f1 =>
      cases f2 with
      | zero => omega
      | succ f2 =>
        simp only [natDigitsAux]
        split_ifs with h
        · simp
        · have hd : n / 10 < n := Nat.div_lt_self (by omega) (by omega)
          rw [ih (n / 10) hd f1 f2 _ (by omega) (by omega),
            ih (n / 10) hd f2 f2 [48 + n % 10] (by omega) (by omega)]
          simp

theorem formatNat_lt (n : Nat) (h : n < 10) : formatNat n = [48 + n] := by
  simp [formatNat, natDigitsAux, h]

theorem formatNat_ge (n : Nat) (h : 10 ≤ n) :
    formatNat n = formatNat (n / 10) ++ [48 + n % 10] := by
  have hd : n / 10 < n := Nat.div_lt_self (by omega) (by omega)
  unfold formatNat
  simp only [natDigitsAux, if_neg (not_lt.mpr h)]
  exact natDigitsAux_eq (n / 10) n (n / 10 + 1) _ hd (by omega)

theorem formatNat_digits (n : Nat) : ∀ c ∈ formatNat n, 48 ≤ c ∧ c ≤ 57 := by
  induction n using Nat.strong_induction_on with
  | _ n ih =>
    intro c hc
    by_cases h : n < 10
    · rw [formatNat_lt n h] at hc
      simp at hc
      omega
    · rw [formatNat_ge n (by omega)] at hc
      rcases List.mem_append.mp hc with hc | hc
      · exact ih (n / 10) (Nat.div_lt_self (by omega) (by omega)) c hc
      · simp at hc
        omega

theorem formatNat_ne_nil (n : Nat) : formatNat n ≠ [] := by
  by_cases h : n < 10
  · rw [formatNat_lt n h]; simp
  · rw [formatNat_ge n (by omega)]; simp

theorem parseDigits_append (xs ys : List Nat) :
    ∀ a, parseDigits (xs ++ ys) a = (parseDigits xs a).bind (parseDigits ys) := by
  induction xs with
  | nil => intro a; simp [parseDigits]
  | cons x xs ih =>
    intro a
    simp only [List.cons_append, parseDigits]
    split_ifs
    · exact ih _
    · rfl

theorem parseDigits_formatNat (n : Nat) : parseDigits (formatNat n) 0 = some n := by
  induction n using Nat.strong_induction_on with
  | _ n ih =>
    by_cases h : n < 10
    · rw [formatNat_lt n h]
      simp [parseDigits]
      omega
    · rw [formatNat_ge n (by omega), parseDigits_append,
        ih (n / 10) (Nat.div_lt_self (by omega) (by omega))]
      simp [parseDigits]
      omega

theorem ParseUint_formatNat (n : Nat) (h : n < 2 ^ 64) : ParseUint (formatNat n) = some n := by
  simp only [ParseUint, if_neg (formatNat_ne_nil n), parseDigits_formatNat, if_pos h]

theorem formatNat_head (n : Nat) : ∃ c rest, formatNat n = c :: rest ∧ 48 ≤ c ∧ c ≤ 57 := by
  cases hf : formatNat n with
  | nil => exact absurd hf (formatNat_ne_nil n)
  | cons c rest =>
    exact ⟨c, rest, rfl, formatNat_digits n c (by rw [hf]; exact List.mem_cons_self c rest)⟩

theorem ParseInt_formatInt (ts : Int) (h1 : -2 ^ 63 ≤ ts) (h2 : ts < 2 ^ 63) :
    ParseInt (formatInt ts) = some ts := by
  cases ts with
  | ofNat n =>
    have hn : n < 2 ^ 63 := by
      simp only [Int.ofNat_eq_coe] at h2
      omega
    obtain ⟨c, rest, hf, hc1, hc2⟩ := formatNat_head n
    have hu := ParseUint_formatNat n (by omega)
    simp only [formatInt]
    rw [hf] at hu ⊢
    simp only [ParseInt]
    rw [if_neg (by omega), if_neg (by omega), hu]
    simp only [if_pos hn]
  | negSucc m =>
    have hm : m + 1 ≤ 2 ^ 63 := by
      have : -((m : Int) + 1) ≥ -2 ^ 63 := by
        rw [← Int.negSucc_eq]; exact h1
      omega
    simp only [formatInt, ParseInt]
    rw [if_neg (by omega), if_pos trivial, ParseUint_formatNat (m + 1) (by omega)]
    simp only [if_pos hm]
    rfl

theorem formatInt_chars (ts : Int) : ∀ c ∈ formatInt ts, c ≠ 44 ∧ c ≠ 10 := by
  intro c hc
  cases ts with
  | ofNat n =>
    have := formatNat_digits n c hc
    omega
  | negSucc m =>
    simp only [formatInt, List.mem_cons] at hc
    rcases hc with hc | hc
    · omega
    · have := formatNat_digits (m + 1) c hc
      omega

theorem formatInt_ne_nil (ts : Int) : formatInt ts ≠ [] := by
  cases ts with
  | ofNat n => exact formatNat_ne_nil n
  | negSucc m => simp [formatInt]
/-! ## Lemmas: base64 -/

theorem b64Val_b64Char (n : Nat) (h : n < 64) : b64Val (b64Char n) = some n := by
  unfold b64Char
  split_ifs with h1 h2 h3 h4
  · simp only [b64Val]
    rw [if_pos (by omega)]
    congr 1
    omega
  · simp only [b64Val]
    rw [if_neg (by omega), if_pos (by omega)]
    congr 1
    omega
  · simp only [b64Val]
    rw [if_neg (by omega), if_neg (by omega), if_pos (by omega)]
    congr 1
    omega
  · subst h4
    rfl
  · have : n = 63 := by omega
    subst this
    rfl

/-- The alphabet has no padding character, line break or comma. -/
theorem b64Char_ne (n : Nat) :
    b64Char n ≠ 61 ∧ b64Char n ≠ 10 ∧ b64Char n ≠ 13 ∧ b64Char n ≠ 44 := by
  unfold b64Char
  split_ifs <;> omega

theorem b64Val_some_ne (c v : Nat) (h : b64Val c = some v) :
    c ≠ 61 ∧ c ≠ 10 ∧ c ≠ 13 ∧ c ≠ 44 := by
  unfold b64Val at h
  split_ifs at h <;> omega

theorem EncodeToString_chars (v : List Nat) :
    ∀ c ∈ EncodeToString v, c ≠ 10 ∧ c ≠ 13 ∧ c ≠ 44 := by
  induction v using EncodeToString.induct with
  | case1 => intro c hc; simp [EncodeToString] at hc
  | case2 a =>
    intro c hc
    simp only [EncodeToString, List.mem_cons, List.mem_singleton, List.not_mem_nil,
      or_false] at hc
    have h1 := b64Char_ne (a / 4)
    have h2 := b64Char_ne (a % 4 * 16)
    rcases hc with rfl | rfl | rfl | rfl <;> omega
  | case3 a b =>
    intro c hc
    simp only [EncodeToString, List.mem_cons, List.mem_singleton, List.not_mem_nil,
      or_false] at hc
    have h1 := b64Char_ne (a / 4)
    have h2 := b64Char_ne (a % 4 * 16 + b / 16)
    have h3 := b64Char_ne (b % 16 * 4)
    rcases hc with rfl | rfl | rfl | rfl <;> omega
  | case4 a b c rest ih =>
    intro x hx
    simp only [EncodeToString, List.mem_cons] at hx
    have h1 := b64Char_ne (a / 4)
    have h2 := b64Char_ne (a % 4 * 16 + b / 16)
    have h3 := b64Char_ne (b % 16 * 4 + c / 64)
    have h4 := b64Char_ne (c % 64)
    rcases hx with rfl | rfl | rfl | rfl | hx
    · omega
    · omega
    · omega
    · omega
    · exact ih x hx

theorem EncodeToString_length (v : List Nat) :
    (EncodeToString v).length = 4 * ((v.length + 2) / 3) := by
  induction v using EncodeToString.induct with
  | case1 => rfl
  | case2 a => simp [EncodeToString]
  | case3 a b => simp [EncodeToString]
  | case4 a b c rest ih =>
    simp only [EncodeToString, List.length_cons, ih]
    omega

theorem decodeQuanta_EncodeToString (v : List Nat) (hv : ∀ b ∈ v, b < 256) :
    decodeQuanta (EncodeToString v) = some v := by
  induction v using EncodeToString.induct with
  | case1 => rfl
  | case2 a =>
    have ha : a < 256 := hv a (by simp)
    simp only [EncodeToString, decodeQuanta]
    rw [b64Val_b64Char _ (by omega), b64Val_b64Char _ (by omega)]
    simp only [if_pos, and_self, if_true]
    congr 2
    omega
  | case3 a b =>
    have ha : a < 256 := hv a (by simp)
    have hb : b < 256 := hv b (by simp)
    simp only [EncodeToString, decodeQuanta]
    rw [b64Val_b64Char _ (by omega), b64Val_b64Char _ (by omega)]
    simp only [if_neg (b64Char_ne _).1]
    rw [b64Val_b64Char _ (by omega)]
    simp only [if_true]
    congr 2
    · omega
    · congr 1
      omega
  | case4 a b c rest ih =>
    have ha : a < 256 := hv a (by simp)
    have hb : b < 256 := hv b (by simp)
    have hc : c < 256 := hv c (by simp)
    have hrest : ∀ x ∈ rest, x < 256 := fun x hx => hv x (by simp [hx])
    simp only [EncodeToString, decodeQuanta]
    rw [b64Val_b64Char _ (by omega), b64Val_b64Char _ (by omega)]
    simp only [if_neg (b64Char_ne _).1]
    rw [b64Val_b64Char _ (by omega)]
    simp only [if_neg (b64Char_ne _).1]
    rw [b64Val_b64Char _ (by omega), ih hrest]
    simp only [Option.map_some']
    congr 2
    · omega
    · congr 1
      · omega
      · congr 1
        omega

theorem filter_EncodeToString (v : List Nat) :
    (EncodeToString v).filter (fun c => c ≠ 10 ∧ c ≠ 13) = EncodeToString v := by
  rw [List.filter_eq_self]
  intro c hc
  have := EncodeToString_chars v c hc
  simp [this.1, this.2.1]

/-- The base64 round trip of the log: decoding what `logOperation` encodes
gives the value back, whatever bytes it holds. -/
theorem DecodeString_EncodeToString (v : List Nat) (hv : ∀ b ∈ v, b < 256) :
    DecodeString (EncodeToString v) = some v := by
  unfold DecodeString
  rw [filter_EncodeToString, decodeQuanta_EncodeToString v hv]
theorem decodeQuanta_no_comma (n : Nat) :
    ∀ s : List Nat, s.length ≤ n → ∀ v, decodeQuanta s = some v → 44 ∉ s := by
  induction n with
  | zero =>
    intro s hs v _
    have : s = [] := List.length_eq_zero.mp (by omega)
    subst this
    simp
  | succ n ih =>
    intro s hs v h
    match s, hs, h with
    | [], _, _ => simp
    | [_], _, h => simp [decodeQuanta] at h
    | [_, _], _, h => simp [decodeQuanta] at h
    | [_, _, _], _, h => simp [decodeQuanta] at h
    | c0 :: c1 :: c2 :: c3 :: rest, hs, h =>
      simp only [decodeQuanta] at h
      cases h0 : b64Val c0 with
      | none => simp [h0] at h
      | some v0 =>
        cases h1 : b64Val c1 with
        | none => simp [h0, h1] at h
        | some v1 =>
          simp only [h0, h1] at h
          have n0 := b64Val_some_ne c0 v0 h0
          have n1 := b64Val_some_ne c1 v1 h1
          by_cases e2 : c2 = 61
          · simp only [e2, if_true] at h
            by_cases e3 : c3 = 61 ∧ rest = []
            · obtain ⟨e3, er⟩ := e3
              subst e2 e3 er
              simp only [List.mem_cons, List.not_mem_nil, or_false]
              omega
            · simp [e3] at h
          · simp only [e2, if_false] at h
            cases h2 : b64Val c2 with
            | none => simp [h2] at h
            | some v2 =>
              simp only [h2] at h
              have n2 := b64Val_some_ne c2 v2 h2
              by_cases e3 : c3 = 61
              · simp only [e3, if_true] at h
                by_cases er : rest = []
                · subst e3 er
                  simp only [List.mem_cons, List.not_mem_nil, or_false]
                  omega
                · simp [er] at h
              · simp only [e3, if_false] at h
                cases h3 : b64Val c3 with
                | none => simp [h3] at h
                | some v3 =>
                  simp only [h3] at h
                  have n3 := b64Val_some_ne c3 v3 h3
                  cases hr : decodeQuanta rest with
                  | none => simp [hr] at h
                  | some t =>
                    have := ih rest (by simp only [List.length_cons] at hs; omega) t hr
                    simp only [List.mem_cons]
                    intro hc
                    rcases hc with hc | hc | hc | hc | hc
                    · omega
                    · omega
                    · omega
                    · omega
                    · exact this hc

theorem DecodeString_comma (s : List Nat) (h : 44 ∈ s) : DecodeString s = none := by
  unfold DecodeString
  cases hd : decodeQuanta (s.filter (fun c => c ≠ 10 ∧ c ≠ 13)) with
  | none => rfl
  | some v =>
    exfalso
    refine decodeQuanta_no_comma _ _ (le_refl _) v hd ?_
    rw [List.mem_filter]
    exact ⟨h, by simp⟩

theorem DecodeString_snoc_cr (s : List Nat) : DecodeString (s ++ [13]) = DecodeString s := by
  unfold DecodeString
  simp [List.filter_append]
/-! ## Lemmas: splitting lines and fields -/

theorem cutAt_of_not_mem (sep : Nat) (l : List Nat) (h : sep ∉ l) : cutAt sep l = none := by
  induction l with
  | nil => rfl
  | cons c cs ih =>
    simp only [List.mem_cons, not_or] at h
    simp only [cutAt, if_neg (Ne.symm h.1), ih h.2]

theorem cutAt_append (sep : Nat) (a b : List Nat) (h : sep ∉ a) :
    cutAt sep (a ++ sep :: b) = some (a, b) := by
  induction a with
  | nil => simp [cutAt]
  | cons c cs ih =>
    simp only [List.mem_cons, not_or] at h
    rw [List.cons_append, cutAt, if_neg (Ne.symm h.1), ih h.2]

theorem cutAt_some (sep : Nat) (l a b : List Nat) (h : cutAt sep l = some (a, b)) :
    l = a ++ sep :: b ∧ sep ∉ a := by
  induction l generalizing a with
  | nil => simp [cutAt] at h
  | cons c cs ih =>
    simp only [cutAt] at h
    split_ifs at h with hc
    · simp only [Option.some.injEq, Prod.mk.injEq] at h
      obtain ⟨rfl, rfl⟩ := h
      simp [hc]
    · cases hcs : cutAt sep cs with
      | none => simp [hcs] at h
      | some p =>
        obtain ⟨a1, b1⟩ := p
        simp only [hcs, Option.some.injEq, Prod.mk.injEq] at h
        obtain ⟨rfl, rfl⟩ := h
        obtain ⟨h1, h2⟩ := ih a1 hcs
        refine ⟨by rw [h1]; rfl, ?_⟩
        simp only [List.mem_cons, not_or]
        exact ⟨fun e => hc e.symm, h2⟩

theorem cutAt_none (sep : Nat) (l : List Nat) (h : cutAt sep l = none) : sep ∉ l := by
  induction l with
  | nil => simp
  | cons c cs ih =>
    simp only [cutAt] at h
    split_ifs at h with hc
    cases hcs : cutAt sep cs with
    | none =>
      simp only [List.mem_cons, not_or]
      exact ⟨fun e => hc e.symm, ih hcs⟩
    | some p => simp [hcs] at h

theorem fields_ne_nil (sep : Nat) (l : List Nat) : fields sep l ≠ [] := by
  induction l with
  | nil => simp [fields]
  | cons c cs ih =>
    simp only [fields]
    split_ifs
    · simp
    · split <;> simp

theorem fields_of_not_mem (sep : Nat) (l : List Nat) (h : sep ∉ l) : fields sep l = [l] := by
  induction l with
  | nil => rfl
  | cons c cs ih =>
    simp only [List.mem_cons, not_or] at h
    simp only [fields, if_neg (Ne.symm h.1), ih h.2]

/-- Splitting after a separator: the fields of both sides, one after the other. -/
theorem fields_append (sep : Nat) (a b : List Nat) :
    fields sep (a ++ sep :: b) = fields sep a ++ fields sep b := by
  induction a with
  | nil => simp [fields]
  | cons c cs ih =>
    rw [List.cons_append, fields, fields, ih]
    split_ifs with hc
    · rfl
    · cases hf : fields sep cs with
      | nil => exact absurd hf (fields_ne_nil sep cs)
      | cons f fs => rfl

theorem SplitN_three (l : List Nat) :
    SplitN 3 l = match cutAt 44 l with
      | none => [l]
      | some (a, b) => match cutAt 44 b with
        | none => [a, b]
        | some (c, d) => [a, c, d] := by
  simp only [SplitN]
  cases cutAt 44 l with
  | none => rfl
  | some p =>
    obtain ⟨a, b⟩ := p
    simp only [SplitN]
    cases cutAt 44 b with
    | none => rfl
    | some q => rfl

theorem wellFormedLine_eq (l : List Nat) :
    wellFormedLine l = match cutAt 44 l with
      | none => none
      | some (a, b) => match cutAt 44 b with
        | none => none
        | some (c, d) =>
          if 44 ∈ d then none
          else match ParseInt a, DecodeString d with
            | some ts, some v => some ⟨ts, c, v⟩
            | _, _ => none := by
  unfold wellFormedLine
  cases h1 : cutAt 44 l with
  | none => rw [fields_of_not_mem 44 l (cutAt_none 44 l h1)]
  | some p =>
    obtain ⟨a, b⟩ := p
    obtain ⟨hl, ha⟩ := cutAt_some 44 l a b h1
    rw [hl, fields_append, fields_of_not_mem 44 a ha]
    simp only []
    cases h2 : cutAt 44 b with
    | none => rw [fields_of_not_mem 44 b (cutAt_none 44 b h2)]; rfl
    | some q =>
      obtain ⟨c, d⟩ := q
      obtain ⟨hb, hc⟩ := cutAt_some 44 b c d h2
      rw [hb, fields_append, fields_of_not_mem 44 c hc]
      simp only []
      by_cases hd : 44 ∈ d
      · simp only [if_pos hd]
        cases h3 : cutAt 44 d with
        | none => exact absurd hd (cutAt_none 44 d h3)
        | some r =>
          obtain ⟨e, f⟩ := r
          obtain ⟨hd2, he⟩ := cutAt_some 44 d e f h3
          rw [hd2, fields_append, fields_of_not_mem 44 e he]
          cases hf : fields 44 f with
          | nil => exact absurd hf (fields_ne_nil 44 f)
          | cons f1 fs => rfl
      · simp only [if_neg hd]
        rw [fields_of_not_mem 44 d hd]
        rfl

/-- The loop body of `recoverStore` does to the shards what the reference does
with the same line. -/
theorem replayLine_eq_overlayLine (ts : Int) (sh : Fin numShards → KeyValueStoreShard)
    (l : List Nat) : replayLine ts sh l = overlayLine ts sh l := by
  unfold replayLine overlayLine
  rw [wellFormedLine_eq, SplitN_three]
  by_cases hl : l = []
  · subst hl
    simp [cutAt]
  · rw [if_neg hl]
    cases h1 : cutAt 44 l with
    | none => rfl
    | some p =>
      obtain ⟨a, b⟩ := p
      simp only []
      cases h2 : cutAt 44 b with
      | none => rfl
      | some q =>
        obtain ⟨c, d⟩ := q
        simp only []
        by_cases hd : 44 ∈ d
        · simp only [if_pos hd, DecodeString_comma d hd]
          cases ParseInt a with
          | none => rfl
          | some t => simp only []; split_ifs <;> rfl
        · simp only [if_neg hd]
          cases ParseInt a with
          | none => rfl
          | some t =>
            cases DecodeString d with
            | none => simp only []; split_ifs <;> rfl
            | some v => rfl

theorem cutAt_snoc (sep c : Nat) (hc : c ≠ sep) (l : List Nat) :
    cutAt sep (l ++ [c]) = match cutAt sep l with
      | none => none
      | some (a, b) => some (a, b ++ [c]) := by
  cases h : cutAt sep l with
  | none =>
    apply cutAt_of_not_mem
    have := cutAt_none sep l h
    simp only [List.mem_append, List.mem_singleton, not_or]
    exact ⟨this, fun e => hc e.symm⟩
  | some p =>
    obtain ⟨a, b⟩ := p
    obtain ⟨hl, ha⟩ := cutAt_some sep l a b h
    rw [hl, List.append_assoc, List.cons_append]
    exact cutAt_append sep a (b ++ [c]) ha

/-- A carriage return at the end of a line changes nothing: the decoder skips it. -/
theorem wellFormedLine_snoc_cr (l : List Nat) : wellFormedLine (l ++ [13]) = wellFormedLine l := by
  rw [wellFormedLine_eq, wellFormedLine_eq, cutAt_snoc 44 13 (by decide)]
  cases h1 : cutAt 44 l with
  | none => rfl
  | some p =>
    obtain ⟨a, b⟩ := p
    simp only []
    rw [cutAt_snoc 44 13 (by decide)]
    cases h2 : cutAt 44 b with
    | none => rfl
    | some q =>
      obtain ⟨c, d⟩ := q
      simp only [DecodeString_snoc_cr, List.mem_append, List.mem_singleton]
      have : (44 ∈ d ∨ 44 = 13) ↔ 44 ∈ d := by simp
      simp only [this]

theorem dropCR_eq (l : List Nat) : dropCR l = l ∨ l = dropCR l ++ [13] := by
  unfold dropCR
  split_ifs with h
  · right
    rcases List.eq_nil_or_concat l with rfl | ⟨l1, b, rfl⟩
    · simp at h
    · simp only [List.concat_eq_append, List.getLast?_append, List.getLast?_singleton,
        Option.or, Option.some.injEq] at h
      subst h
      simp
  · left; rfl

theorem overlayLine_dropCR (ts : Int) (sh : Fin numShards → KeyValueStoreShard) (l : List Nat) :
    overlayLine ts sh (dropCR l) = overlayLine ts sh l := by
  unfold overlayLine
  rcases dropCR_eq l with h | h
  · rw [h]
  · conv_rhs => rw [h, wellFormedLine_snoc_cr]

theorem overlayLine_nil (ts : Int) (sh : Fin numShards → KeyValueStoreShard) :
    overlayLine ts sh [] = sh := by
  simp [overlayLine, wellFormedLine, fields]
/-! ## Lemmas: the scanner and the replay loop -/

theorem scanLinesAux_line (l : List Nat) (hl : 10 ∉ l) :
    ∀ cur rest, scanLinesAux cur (l ++ rest) = scanLinesAux (cur ++ l) rest := by
  induction l with
  | nil => intro cur rest; simp
  | cons b bs ih =>
    intro cur rest
    simp only [List.mem_cons, not_or] at hl
    rw [List.cons_append, scanLinesAux, if_neg (Ne.symm hl.1), ih hl.2]
    simp

/-- A line of `maxLineSize` bytes or more ends the scan with `ErrTooLong`, and
no token of that line or of a later line is delivered. -/
theorem scanLines_tooLong (l rest : List Nat) (hl : 10 ∉ l) (hlen : maxLineSize ≤ l.length) :
    scanLines (l ++ 10 :: rest) = ([], some StoreError.tooLong) := by
  unfold scanLines
  rw [scanLinesAux_line l hl, List.nil_append, scanLinesAux, if_pos rfl, if_pos hlen]

theorem scanLinesAux_fields (ts : Int) :
    ∀ (wal cur : List Nat) (sh : Fin numShards → KeyValueStoreShard), 10 ∉ cur →
      (∀ l ∈ fields 10 (cur ++ wal), l.length < maxLineSize) →
      (scanLinesAux cur wal).2 = none ∧
      (scanLinesAux cur wal).1.foldl (replayLine ts) sh =
        (fields 10 (cur ++ wal)).foldl (overlayLine ts) sh := by
  intro wal
  induction wal with
  | nil =>
    intro cur sh hcur hlen
    rw [List.append_nil] at hlen ⊢
    rw [fields_of_not_mem 10 cur hcur] at hlen ⊢
    have hc : cur.length < maxLineSize := hlen cur (by simp)
    unfold scanLinesAux
    by_cases he : cur = []
    · subst he
      simp [overlayLine_nil]
    · rw [if_neg he, if_neg (by omega)]
      simp [replayLine_eq_overlayLine, overlayLine_dropCR]
  | cons b rest ih =>
    intro cur sh hcur hlen
    by_cases hb : b = 10
    · subst hb
      rw [fields_append, fields_of_not_mem 10 cur hcur] at hlen ⊢
      have hc : cur.length < maxLineSize := hlen cur (by simp)
      have hrest : ∀ l ∈ fields 10 ([] ++ rest), l.length < maxLineSize := by
        intro l hl
        exact hlen l (by simp only [List.nil_append] at hl; simp [hl])
      obtain ⟨h1, h2⟩ := ih [] (overlayLine ts sh cur) (by simp) hrest
      rw [scanLinesAux, if_pos rfl, if_neg (by omega)]
      refine ⟨h1, ?_⟩
      simp only [List.foldl_cons, List.singleton_append, replayLine_eq_overlayLine,
        overlayLine_dropCR]
      simpa using h2
    · have hcur2 : 10 ∉ cur ++ [b] := by
        simp only [List.mem_append, List.mem_singleton, not_or]
        exact ⟨hcur, fun e => hb e.symm⟩
      have hlen2 : ∀ l ∈ fields 10 ((cur ++ [b]) ++ rest), l.length < maxLineSize := by
        simpa using hlen
      obtain ⟨h1, h2⟩ := ih (cur ++ [b]) sh hcur2 hlen2
      rw [scanLinesAux, if_neg hb]
      refine ⟨h1, ?_⟩
      rw [h2]
      simp

theorem foldl_overlayLine (ts : Int) (lines : List (List Nat)) :
    ∀ sh : Fin numShards → KeyValueStoreShard,
      lines.foldl (overlayLine ts) sh =
        applyRecords sh ((lines.filterMap wellFormedLine).filter (fun r => decide (r.ts > ts))) := by
  induction lines with
  | nil => intro sh; rfl
  | cons l ls ih =>
    intro sh
    simp only [List.foldl_cons, List.filterMap_cons]
    rw [ih]
    unfold overlayLine
    cases hw : wellFormedLine l with
    | none => rfl
    | some r =>
      simp only []
      by_cases hr : r.ts > ts
      · rw [if_pos hr, List.filter_cons_of_pos (by simpa using hr)]
        rfl
      · rw [if_neg hr, List.filter_cons_of_neg (by simpa using hr)]

/-- The shards and the snapshot timestamp with which the replay loop starts. -/
theorem recoverStore_content (s : ShardedStore) (snapshot : Option SnapshotData)
    (wal : List Nat) (hlen : ∀ l ∈ fields 10 wal, l.length < maxLineSize) :
    recoverStore s (snapshotFileOf snapshot) (WalFile.content wal) =
      ({ s with shards :=
          applyRecords (startShards s.shards snapshot) (recordsAfter (snapshotTs snapshot) wal) },
        none) := by
  have key : ∀ (ts : Int) (sh : Fin numShards → KeyValueStoreShard),
      (scanLines wal).2 = none ∧
      (scanLines wal).1.foldl (replayLine ts) sh = applyRecords sh (recordsAfter ts wal) := by
    intro ts sh
    obtain ⟨h1, h2⟩ := scanLinesAux_fields ts wal [] sh (by simp) (by simpa using hlen)
    refine ⟨h1, ?_⟩
    unfold scanLines recordsAfter
    rw [h2, List.nil_append, foldl_overlayLine]
  cases snapshot with
  | none =>
    simp only [recoverStore, snapshotFileOf, snapshotTs, startShards]
    rw [(key 0 s.shards).1, (key 0 s.shards).2]
  | some snap =>
    simp only [recoverStore, snapshotFileOf, snapshotTs, startShards]
    rw [(key snap.Timestamp (loadSnapshot s.shards snap)).1,
      (key snap.Timestamp (loadSnapshot s.shards snap)).2]
/-! ## Lemmas: what a shard holds after a run of installs -/

theorem install_lookup (sh : Fin numShards → KeyValueStoreShard) (k1 : Key) (v : Value)
    (i : Fin numShards) (k : Key) :
    (install sh k1 v i).lookup k =
      if k1 = k ∧ i = getShard k then some v else (sh i).lookup k := by
  by_cases hk : k1 = k
  · subst hk
    by_cases hi : i = getShard k1
    · subst hi
      rw [if_pos ⟨rfl, rfl⟩, install_lookup_self]
    · rw [if_neg (fun h => hi h.2)]
      unfold install
      rw [Function.update_noteq hi]
  · rw [if_neg (fun h => hk h.1), install_lookup_ne _ _ _ _ hk]

theorem foldl_install_lookup (i : Fin numShards) (k : Key) :
    ∀ (l : List (Σ _ : Key, Value)) (sh : Fin numShards → KeyValueStoreShard), l.NodupKeys →
      ((l.foldl (fun sh e => install sh e.1 e.2) sh) i).lookup k =
        if i = getShard k then
          match List.dlookup k l with
          | some v => some v
          | none => (sh i).lookup k
        else (sh i).lookup k := by
  intro l
  induction l with
  | nil =>
    intro sh _
    simp
  | cons e tl ih =>
    intro sh hnd
    obtain ⟨k1, v1⟩ := e
    have htl : tl.NodupKeys := (List.nodupKeys_cons.mp hnd).2
    have hk1 : k1 ∉ tl.keys := (List.nodupKeys_cons.mp hnd).1
    rw [List.foldl_cons, ih _ htl, install_lookup]
    by_cases hi : i = getShard k
    · rw [if_pos hi, if_pos hi]
      by_cases hk : k = k1
      · subst hk
        rw [List.dlookup_cons_eq, List.dlookup_eq_none.mpr hk1, if_pos ⟨rfl, hi⟩]
      · rw [List.dlookup_cons_ne _ _ hk, if_neg (fun h => hk h.1.symm)]
    · rw [if_neg hi, if_neg hi, if_neg (fun h => hi h.2)]

/-- Loading a snapshot into empty shards puts every entry in the shard of its
key and nothing anywhere else. -/
theorem loadSnapshot_lookup (snap : SnapshotData) (i : Fin numShards) (k : Key) :
    ((loadSnapshot emptyShards snap) i).lookup k =
      if i = getShard k then snap.Data.lookup k else none := by
  unfold loadSnapshot
  rw [foldl_install_lookup i k snap.Data.entries emptyShards snap.Data.nodupKeys]
  have he : (emptyShards i).lookup k = none := rfl
  rw [he]
  split_ifs
  · show (match snap.Data.lookup k with
      | some v => some v
      | none => none) = snap.Data.lookup k
    cases snap.Data.lookup k <;> rfl
  · rfl

/-- A run of installs leaves under `k`, in the shard of `k`, the value of the
last record with the key `k`, and what was there before when there is no such
record; the other shards hold under `k` what they held. -/
theorem applyRecords_lookup (i : Fin numShards) (k : Key) :
    ∀ (rs : List WalRecord) (sh : Fin numShards → KeyValueStoreShard),
      ((applyRecords sh rs) i).lookup k =
        if i = getShard k then
          match lastValue k (rs.map (fun r => (r.key, r.value))) with
          | some v => some v
          | none => (sh i).lookup k
        else (sh i).lookup k := by
  intro rs
  induction rs with
  | nil =>
    intro sh
    simp [applyRecords, lastValue]
  | cons r rs ih =>
    intro sh
    have hstep : applyRecords sh (r :: rs) = applyRecords (install sh r.key r.value) rs := rfl
    rw [hstep, ih, install_lookup]
    simp only [List.map_cons, lastValue]
    by_cases hi : i = getShard k
    · rw [if_pos hi, if_pos hi]
      cases lastValue k (rs.map (fun r => (r.key, r.value))) with
      | some w => rfl
      | none =>
        simp only []
        by_cases hk : r.key = k
        · rw [if_pos ⟨hk, hi⟩, if_pos hk]
        · rw [if_neg (fun h => hk h.1), if_neg hk]
    · rw [if_neg hi, if_neg hi, if_neg (fun h => hi h.2)]

theorem startShards_lookup (snapshot : Option SnapshotData) (i : Fin numShards) (k : Key) :
    ((startShards emptyShards snapshot) i).lookup k =
      if i = getShard k then
        match snapshot with
        | some snap => snap.Data.lookup k
        | none => none
      else none := by
  cases snapshot with
  | none =>
    have he : ((startShards emptyShards none) i).lookup k = none := rfl
    rw [he]
    split_ifs <;> rfl
  | some snap => exact loadSnapshot_lookup snap i k

/-- What the shards hold after recovery into empty shards, key by key. -/
theorem recoverStore_lookup (s : ShardedStore) (snapshot : Option SnapshotData)
    (wal : List Nat) (hs : s.shards = emptyShards)
    (hlen : ∀ l ∈ fields 10 wal, l.length < maxLineSize) (i : Fin numShards) (k : Key) :
    ((recoverStore s (snapshotFileOf snapshot) (WalFile.content wal)).1.shards i).lookup k =
      if i = getShard k then referenceState snapshot wal k else none := by
  rw [recoverStore_content s snapshot wal hlen, hs]
  show ((applyRecords (startShards emptyShards snapshot)
    (recordsAfter (snapshotTs snapshot) wal)) i).lookup k = _
  rw [applyRecords_lookup, startShards_lookup]
  unfold referenceState
  by_cases hi : i = getShard k
  · simp only [if_pos hi]
  · simp only [if_neg hi]

theorem Get_recoverStore (s : ShardedStore) (snapshot : Option SnapshotData)
    (wal : List Nat) (hs : s.shards = emptyShards)
    (hlen : ∀ l ∈ fields 10 wal, l.length < maxLineSize) (k : Key) :
    (Get (recoverStore s (snapshotFileOf snapshot) (WalFile.content wal)).1 k).1 =
      getResponse (referenceState snapshot wal k) := by
  rw [Get_fst, recoverStore_lookup s snapshot wal hs hlen, if_pos rfl]
  cases referenceState snapshot wal k <;> rfl

theorem walEntry_eq (ts : Int) (key : Key) (value : Value) :
    walEntry ts key value = walLine ts key value ++ [10] := by
  simp [walEntry, walLine]

theorem walLine_no_newline (ts : Int) (key : Key) (value : Value) (hkey : 10 ∉ key) :
    10 ∉ walLine ts key value := by
  unfold walLine
  simp only [List.mem_append, List.mem_cons, not_or]
  refine ⟨fun h => (formatInt_chars ts 10 h).2 rfl, by omega, hkey, by omega, fun h => ?_⟩
  exact (EncodeToString_chars value 10 h).1 rfl

/-- The line `logOperation` formats is well-formed and carries the timestamp,
the key and the value of the call. -/
theorem wellFormedLine_walLine (ts : Int) (key : Key) (value : Value)
    (hts : -2 ^ 63 ≤ ts ∧ ts < 2 ^ 63) (hkey : 44 ∉ key) (hval : ∀ b ∈ value, b < 256) :
    wellFormedLine (walLine ts key value) = some ⟨ts, key, value⟩ := by
  have h1 : 44 ∉ formatInt ts := fun h => (formatInt_chars ts 44 h).1 rfl
  have h2 : 44 ∉ EncodeToString value := fun h => (EncodeToString_chars value 44 h).2.2 rfl
  rw [wellFormedLine_eq]
  unfold walLine
  rw [cutAt_append 44 _ _ h1]
  simp only []
  rw [cutAt_append 44 _ _ hkey]
  simp only [if_neg h2, ParseInt_formatInt ts hts.1 hts.2, DecodeString_EncodeToString value hval]

/-! ## C4: recovery against its reference definition -/

/-- C4 (amended). For every snapshot (or none) and every log content whose
lines are all shorter than `maxLineSize` = 10 MiB, `recoverStore` returns no
error, and afterwards every key `k` is held by the shard `getShard k` alone,
with the value of the last line of the log, in file order, that is well-formed
(three comma-separated fields, a base-10 integer timestamp, a valid base64
value), newer than the snapshot and has the key `k`, and with the value of the
snapshot when there is no such line; `Get` answers accordingly.  Lines that
are older, malformed, with a bad timestamp or a bad base64 value have no
effect and do not stop the replay.  A snapshot that does not parse counts as
no snapshot.  Every line that `logOperation` formats for an `int64` timestamp
and a key without comma is well-formed and carries that timestamp, key and
value. -/
theorem recoverStore_eq_reference (s : ShardedStore) (snapshot : Option SnapshotData)
    (wal : List Nat) (hs : s.shards = emptyShards)
    (hlen : ∀ l ∈ fields 10 wal, l.length < maxLineSize) :
    (recoverStore s (snapshotFileOf snapshot) (WalFile.content wal)).2 = none ∧
    (∀ (i : Fin numShards) (k : Key),
      ((recoverStore s (snapshotFileOf snapshot) (WalFile.content wal)).1.shards i).lookup k =
        if i = getShard k then referenceState snapshot wal k else none) ∧
    (∀ k : Key,
      (Get (recoverStore s (snapshotFileOf snapshot) (WalFile.content wal)).1 k).1 =
        getResponse (referenceState snapshot wal k)) ∧
    (∀ (i : Fin numShards) (k : Key),
      ((recoverStore s SnapshotFile.corrupt (WalFile.content wal)).1.shards i).lookup k =
        if i = getShard k then referenceState none wal k else none) ∧
    (∀ (ts : Int) (key : Key) (value : Value), -2 ^ 63 ≤ ts ∧ ts < 2 ^ 63 → 44 ∉ key →
      (∀ b ∈ value, b < 256) →
        wellFormedLine (walLine ts key value) = some ⟨ts, key, value⟩) := by
  refine ⟨?_, recoverStore_lookup s snapshot wal hs hlen,
    Get_recoverStore s snapshot wal hs hlen, ?_, wellFormedLine_walLine⟩
  · rw [recoverStore_content s snapshot wal hlen]
  · have hc : recoverStore s SnapshotFile.corrupt (WalFile.content wal) =
        recoverStore s (snapshotFileOf none) (WalFile.content wal) := rfl
    rw [hc]
    exact recoverStore_lookup s none wal hs hlen

/-- C4 on the snapshot `snapshotA` (timestamp 4, `a -> 01`) and the log
`mixedWal`: `k` is overwritten by its later line, the line of `a` is older
than the snapshot and leaves the value of the snapshot, the unterminated last
line of `z` is replayed, and the line with two fields, the one with a bad
timestamp and the one with a bad base64 value install nothing. -/
theorem recoverStore_eq_reference_witness :
    (recoverStore emptyStore (snapshotFileOf (some snapshotA)) (WalFile.content mixedWal)).2
      = none ∧
    (Get (recoverStore emptyStore (snapshotFileOf (some snapshotA))
      (WalFile.content mixedWal)).1 (ascii "k")).1 = ([66], true) ∧
    (Get (recoverStore emptyStore (snapshotFileOf (some snapshotA))
      (WalFile.content mixedWal)).1 (ascii "a")).1 = ([1], true) ∧
    (Get (recoverStore emptyStore (snapshotFileOf (some snapshotA))
      (WalFile.content mixedWal)).1 (ascii "z")).1 = (ascii "ABC", true) ∧
    (Get (recoverStore emptyStore (snapshotFileOf (some snapshotA))
      (WalFile.content mixedWal)).1 (ascii "j")).1 = ([], false) ∧
    (Get (recoverStore emptyStore (snapshotFileOf (some snapshotA))
      (WalFile.content mixedWal)).1 (ascii "y")).1 = ([], false) ∧
    (Get (recoverStore emptyStore (snapshotFileOf (some snapshotA))
      (WalFile.content mixedWal)).1 (ascii "b")).1 = ([], false) ∧
    ((recoverStore emptyStore SnapshotFile.corrupt (WalFile.content mixedWal)).1.shards
      (getShard (ascii "a"))).lookup (ascii "a") = some [66] ∧
    wellFormedLine (walLine 9 (ascii "key") [0, 10, 44, 255]) =
      some ⟨9, ascii "key", [0, 10, 44, 255]⟩ :=
  have h := recoverStore_eq_reference emptyStore (some snapshotA) mixedWal rfl (by decide)
  ⟨h.1, (h.2.2.1 (ascii "k")).trans (by decide), by decide,
    (h.2.2.1 (ascii "z")).trans (by decide), by decide,
    (h.2.2.1 (ascii "y")).trans (by decide), (h.2.2.1 (ascii "b")).trans (by decide),
    (h.2.2.2.1 (getShard (ascii "a")) (ascii "a")).trans (by decide),
    h.2.2.2.2 9 (ascii "key") [0, 10, 44, 255] (by decide) (by decide) (by decide)⟩

theorem wellFormedLine_no_comma (l : List Nat) (h : 44 ∉ l) : wellFormedLine l = none := by
  rw [wellFormedLine_eq, cutAt_of_not_mem 44 l h]

theorem longLineWal_scan : scanLines longLineWal = ([], some StoreError.tooLong) := by
  unfold longLineWal
  apply scanLines_tooLong
  · intro h
    have := List.eq_of_mem_replicate h
    omega
  · rw [List.length_replicate]
    omega

theorem longLineWal_records : recordsAfter 0 longLineWal = [⟨1, ascii "k", [65]⟩] := by
  have h1 : wellFormedLine (List.replicate (maxLineSize + 1) 65) = none := by
    apply wellFormedLine_no_comma
    intro h
    have := List.eq_of_mem_replicate h
    omega
  have h2 : (fields 10 (ascii "1,k,QQ==\n")).filterMap wellFormedLine
      = [⟨1, ascii "k", [65]⟩] := by decide
  have h10 : 10 ∉ List.replicate (maxLineSize + 1) 65 := by
    intro h
    have := List.eq_of_mem_replicate h
    omega
  unfold recordsAfter longLineWal
  rw [fields_append, fields_of_not_mem 10 _ h10, List.filterMap_append,
    List.filterMap_cons_none h1, List.filterMap_nil, List.nil_append, h2]
  decide

theorem referenceState_none (wal : List Nat) (k : Key) :
    referenceState none wal k =
      lastValue k ((recordsAfter 0 wal).map (fun r => (r.key, r.value))) := by
  unfold referenceState
  rw [show snapshotTs none = 0 from rfl]
  cases lastValue k ((recordsAfter 0 wal).map (fun r => (r.key, r.value))) <;> rfl

/-- C4 fails as stated: the first line of `longLineWal` is malformed (it has
no comma) and one byte over 10 MiB; `recoverStore` stops at it with an error
and never replays the well-formed record `1,k,QQ==` that follows: `Get` does
not find `k`, for which the reference definition gives the value `A`. -/
theorem recoverStore_long_line_stops_replay :
    (recoverStore emptyStore SnapshotFile.missing (WalFile.content longLineWal)).2
      = some StoreError.tooLong ∧
    (Get (recoverStore emptyStore SnapshotFile.missing (WalFile.content longLineWal)).1
      (ascii "k")).1 = ([], false) ∧
    referenceState none longLineWal (ascii "k") = some [65] ∧
    getResponse (referenceState none longLineWal (ascii "k")) = ([65], true) := by
  have hcode : recoverStore emptyStore SnapshotFile.missing (WalFile.content longLineWal)
      = (emptyStore, some StoreError.tooLong) := by
    simp only [recoverStore, longLineWal_scan, List.foldl_nil]
  have href : referenceState none longLineWal (ascii "k") = some [65] := by
    rw [referenceState_none, longLineWal_records]
    decide
  rw [hcode]
  exact ⟨rfl, rfl, href, congrArg getResponse href⟩

/-! ## C5: replay order -/

/-- C5 (amended). For every snapshot and every log content whose lines are all
shorter than `maxLineSize`, after `recoverStore` every key is held by the
shard of the key alone, with the value that the well-formed records newer than
the snapshot give when they are applied in file order on top of the snapshot
contents; when the timestamps of those records do not decrease along the file
this is the value they give when applied in the order of their timestamps.
The records of the log `orderedWal` that are newer than timestamp 4 are
`5,k -> A` and `6,k -> B`. -/
theorem recoverStore_file_order (s : ShardedStore) (snapshot : Option SnapshotData)
    (wal : List Nat) (hs : s.shards = emptyShards)
    (hlen : ∀ l ∈ fields 10 wal, l.length < maxLineSize) :
    (∀ (i : Fin numShards) (k : Key),
      ((recoverStore s (snapshotFileOf snapshot) (WalFile.content wal)).1.shards i).lookup k =
        if i = getShard k then referenceState snapshot wal k else none) ∧
    ((recordsAfter (snapshotTs snapshot) wal).Sorted (fun a b => a.ts ≤ b.ts) →
      ∀ (i : Fin numShards) (k : Key),
        ((recoverStore s (snapshotFileOf snapshot) (WalFile.content wal)).1.shards i).lookup k =
          if i = getShard k then timestampOrderState snapshot wal k else none) ∧
    recordsAfter 4 orderedWal = [⟨5, ascii "k", [65]⟩, ⟨6, ascii "k", [66]⟩] := by
  refine ⟨recoverStore_lookup s snapshot wal hs hlen, fun hsorted i k => ?_, by decide⟩
  rw [recoverStore_lookup s snapshot wal hs hlen]
  unfold timestampOrderState referenceState
  rw [List.Sorted.insertionSort_eq hsorted]

/-- C5 (amended) on the snapshot `snapshotA` (timestamp 4, `a -> 01`) and the
log `orderedWal`, whose timestamps increase: after recovery `k` holds `B`, the
value of its record with the greatest timestamp, and `a` holds the value of
the snapshot, its record being older. -/
theorem recoverStore_file_order_witness :
    ((recoverStore emptyStore (snapshotFileOf (some snapshotA))
      (WalFile.content orderedWal)).1.shards (getShard (ascii "k"))).lookup (ascii "k")
      = some [66] ∧
    ((recoverStore emptyStore (snapshotFileOf (some snapshotA))
      (WalFile.content orderedWal)).1.shards (getShard (ascii "a"))).lookup (ascii "a")
      = some [1] ∧
    ((recoverStore emptyStore (snapshotFileOf (some snapshotA))
      (WalFile.content orderedWal)).1.shards (getShard (ascii "a"))).lookup (ascii "k")
      = none :=
  have h := (recoverStore_file_order emptyStore (some snapshotA) orderedWal rfl
    (by decide)).2.1 (by decide)
  ⟨(h (getShard (ascii "k")) (ascii "k")).trans (by decide), by decide,
    (h (getShard (ascii "a")) (ascii "k")).trans (by decide)⟩

/-- C5 fails as stated: on `unorderedWal` the record with timestamp 3 stands
after the record with timestamp 5; `recoverStore` returns no error, replays in
file order and ends with the value `B` of the later line, while the records
applied in the order of their timestamps end with the value `A`. -/
theorem recoverStore_not_timestamp_order :
    (recoverStore emptyStore SnapshotFile.missing (WalFile.content unorderedWal)).2 = none ∧
    (Get (recoverStore emptyStore SnapshotFile.missing (WalFile.content unorderedWal)).1
      (ascii "k")).1 = ([66], true) ∧
    timestampOrderState none unorderedWal (ascii "k") = some [65] ∧
    getResponse (timestampOrderState none unorderedWal (ascii "k")) = ([65], true) := by
  refine ⟨by decide, by decide, by decide, by decide⟩

/-! ## C3: round trip of one log record -/

theorem overlayLine_walLine (snapTs ts : Int) (key : Key) (value : Value)
    (sh : Fin numShards → KeyValueStoreShard)
    (hts : -2 ^ 63 ≤ ts ∧ ts < 2 ^ 63) (hsnap : snapTs < ts) (hkey : 44 ∉ key)
    (hval : ∀ b ∈ value, b < 256) :
    overlayLine snapTs sh (walLine ts key value) = install sh key value := by
  unfold overlayLine
  rw [wellFormedLine_walLine ts key value hts hkey hval]
  simp only [gt_iff_lt, if_pos hsnap]

/-- The fields of a log that ends a line, followed by one more record. -/
theorem fields_complete_append (pre line : List Nat) (hpre : pre = [] ∨ ∃ p, pre = p ++ [10])
    (hline : 10 ∉ line) :
    ∃ ls, (fields 10 (pre ++ (line ++ [10])) = ls ++ [line, []]) ∧
      (pre = [] ∧ ls = [] ∨ fields 10 pre = ls ++ [[]]) := by
  have hl : fields 10 (line ++ [10]) = [line, []] := by
    rw [fields_append, fields_of_not_mem 10 line hline]
    rfl
  rcases hpre with rfl | ⟨p, rfl⟩
  · exact ⟨[], by simpa using hl, Or.inl ⟨rfl, rfl⟩⟩
  · refine ⟨fields 10 p, ?_, Or.inr ?_⟩
    · rw [List.append_assoc, List.singleton_append, fields_append, hl]
    · rw [fields_append]
      rfl

theorem applyRecords_eq_foldl (ts : Int) (sh : Fin numShards → KeyValueStoreShard)
    (wal : List Nat) :
    applyRecords sh (recordsAfter ts wal) = (fields 10 wal).foldl (overlayLine ts) sh := by
  unfold recordsAfter
  rw [foldl_overlayLine]

/-- The part of the round trip that holds.  Let `pre` be a log of complete
lines, each shorter than `maxLineSize`, and let `logOperation` format the
record of timestamp `ts` (an `int64` greater than the snapshot timestamp), of
a key without comma and line feed and of any byte sequence `value`, such that
the record without its line feed is shorter than `maxLineSize` = 10 MiB.  Then
recovery from `pre` followed by the record returns no error, its result is the
result of recovery from `pre` with exactly one more install, of `key -> value`
in the shard `getShard(key)`, and `Get(key)` returns `(value, true)`. -/
theorem recoverStore_append_record (s : ShardedStore) (snapshot : Option SnapshotData)
    (pre : List Nat) (ts : Int) (key : Key) (value : Value)
    (hpre : pre = [] ∨ ∃ p, pre = p ++ [10])
    (hprelen : ∀ l ∈ fields 10 pre, l.length < maxLineSize)
    (hts : -2 ^ 63 ≤ ts ∧ ts < 2 ^ 63) (hsnap : snapshotTs snapshot < ts)
    (hkey : 44 ∉ key ∧ 10 ∉ key) (hval : ∀ b ∈ value, b < 256)
    (hlen : (walLine ts key value).length < maxLineSize) :
    (recoverStore s (snapshotFileOf snapshot)
      (WalFile.content (pre ++ walEntry ts key value))).2 = none ∧
    (recoverStore s (snapshotFileOf snapshot)
      (WalFile.content (pre ++ walEntry ts key value))).1.shards =
      install (recoverStore s (snapshotFileOf snapshot) (WalFile.content pre)).1.shards
        key value ∧
    (Get (recoverStore s (snapshotFileOf snapshot)
      (WalFile.content (pre ++ walEntry ts key value))).1 key).1 = (value, true) := by
  have hline := walLine_no_newline ts key value hkey.2
  obtain ⟨ls, hf, hls⟩ := fields_complete_append pre (walLine ts key value) hpre hline
  rw [walEntry_eq]
  have hall : ∀ l ∈ fields 10 (pre ++ (walLine ts key value ++ [10])),
      l.length < maxLineSize := by
    intro l hl
    rw [hf] at hl
    simp only [List.mem_append, List.mem_cons, List.mem_singleton, List.not_mem_nil,
      or_false] at hl
    rcases hl with hl | rfl | rfl
    · rcases hls with ⟨_, rfl⟩ | hp
      · simp at hl
      · exact hprelen l (by rw [hp]; simp [hl])
    · exact hlen
    · simp [maxLineSize]
  have hshards : (recoverStore s (snapshotFileOf snapshot)
      (WalFile.content (pre ++ (walLine ts key value ++ [10])))).1.shards =
      install (recoverStore s (snapshotFileOf snapshot) (WalFile.content pre)).1.shards
        key value := by
    rw [recoverStore_content s snapshot _ hall, recoverStore_content s snapshot pre hprelen]
    simp only [applyRecords_eq_foldl]
    rw [hf, List.foldl_append]
    simp only [List.foldl_cons, List.foldl_nil, overlayLine_nil]
    rw [overlayLine_walLine _ ts key value _ hts hsnap hkey.1 hval]
    rcases hls with ⟨rfl, rfl⟩ | hp
    · rfl
    · rw [hp, List.foldl_append]
      simp only [List.foldl_cons, List.foldl_nil, overlayLine_nil]
  refine ⟨?_, hshards, ?_⟩
  · rw [recoverStore_content s snapshot _ hall]
  · rw [Get_fst, hshards, install_lookup_self]

theorem largeValue_length : largeValue.length = 7864320 := List.length_replicate _ _

theorem walLine_length (ts : Int) (key : Key) (value : Value) :
    (walLine ts key value).length =
      (formatInt ts).length + (key.length + 4 * ((value.length + 2) / 3) + 2) := by
  simp only [walLine, List.length_append, List.length_cons, EncodeToString_length]
  omega

theorem largeValue_line_length :
    maxLineSize ≤ (walLine 1 (ascii "k") largeValue).length := by
  rw [walLine_length, largeValue_length]
  unfold maxLineSize
  omega

/-- For the value `largeValue` of 7.5 MiB the record that `logOperation`
formats is longer than the scanner accepts: recovery from a log holding just
that record returns the error `ErrTooLong` and installs nothing. -/
theorem recoverStore_largeValue :
    recoverStore emptyStore SnapshotFile.missing
      (WalFile.content (walEntry 1 (ascii "k") largeValue)) =
      (emptyStore, some StoreError.tooLong) := by
  have hscan : scanLines (walEntry 1 (ascii "k") largeValue) = ([], some StoreError.tooLong) := by
    rw [walEntry_eq]
    exact scanLines_tooLong _ [] (walLine_no_newline 1 (ascii "k") largeValue (by decide))
      largeValue_line_length
  simp only [recoverStore, hscan, List.foldl_nil]

/-- C3 fails on the code: a record that `logOperation` wrote and flushed is
not always replayed.
(1) For the value `largeValue` of 7.5 MiB (7864320 bytes, below the message
cap) the record is longer than the scanner accepts: recovery from a log
holding just that record returns `ErrTooLong`, nothing is installed and `Get`
does not find the key.
(2) The log of `tornDisk` ends in `7,z,QUJD` without line feed.  The server
starts on it and reads `z` as `ABC`; the log is opened for appending, so the
record of the next `Set("k", "v")`, which returns success, lands on the same
line; after a restart the line `7,z,QUJD8,k,dg==` is dropped as not base64 and
neither `k` nor `z` is found.
(3) The same within one process: a `Set` whose write fails after 3 bytes
returns an error and leaves `1,a` in the log; the next `Set("k", "v")` returns
success, and after a restart `k` is not found. -/
theorem wal_record_lost_on_recovery :
    (largeValue.length = 7864320 ∧
      (recoverStore emptyStore SnapshotFile.missing
        (WalFile.content (walEntry 1 (ascii "k") largeValue))).2 = some StoreError.tooLong ∧
      (Get (recoverStore emptyStore SnapshotFile.missing
        (WalFile.content (walEntry 1 (ascii "k") largeValue))).1 (ascii "k")).1 = ([], false)) ∧
    (∃ s, NewShardedStore tornDisk = Except.ok s ∧
      (Get s (ascii "z")).1 = (ascii "ABC", true) ∧
      (Set s ⟨8, none, false⟩ (ascii "k") (ascii "v")).1 = SetResult.ok ∧
      (Get (Set s ⟨8, none, false⟩ (ascii "k") (ascii "v")).2 (ascii "k")).1
        = (ascii "v", true) ∧
      (Set s ⟨8, none, false⟩ (ascii "k") (ascii "v")).2.walFile = ascii "7,z,QUJD8,k,dg==\n" ∧
      restartGet (Set s ⟨8, none, false⟩ (ascii "k") (ascii "v")).2 (ascii "k")
        = some ([], false) ∧
      restartGet (Set s ⟨8, none, false⟩ (ascii "k") (ascii "v")).2 (ascii "z")
        = some ([], false)) ∧
    ((Set emptyStore ⟨1, some 3, false⟩ (ascii "a") (ascii "x")).1 = SetResult.internal ∧
      (Set emptyStore ⟨1, some 3, false⟩ (ascii "a") (ascii "x")).2.walFile = ascii "1,a" ∧
      (Set (Set emptyStore ⟨1, some 3, false⟩ (ascii "a") (ascii "x")).2
        ⟨2, none, false⟩ (ascii "k") (ascii "v")).1 = SetResult.ok ∧
      (Set (Set emptyStore ⟨1, some 3, false⟩ (ascii "a") (ascii "x")).2
        ⟨2, none, false⟩ (ascii "k") (ascii "v")).2.walFile = ascii "1,a2,k,dg==\n" ∧
      restartGet (Set (Set emptyStore ⟨1, some 3, false⟩ (ascii "a") (ascii "x")).2
        ⟨2, none, false⟩ (ascii "k") (ascii "v")).2 (ascii "k") = some ([], false)) := by
  refine ⟨?_, ⟨_, rfl, ?_, ?_, ?_, ?_, ?_, ?_⟩, ?_, ?_, ?_, ?_, ?_⟩
  · rw [recoverStore_largeValue]
    exact ⟨largeValue_length, rfl, rfl⟩
  all_goals decide

/-! ## C6: where `takeSnapshot` reads the clock -/

/-- C6 fails on the code.  `takeSnapshot` reads the clock on line 241, after
the copy loop, so a snapshot stamp exists only once all shards are read; in
`lateStampSchedule` the `Set` of `k` stamps its record with 100 after its shard
was copied, the snapshot is stamped 101 and written without `k`.  The `Set`
returns success and `Get` finds the value, but after a restart the key is not
found, with the log rotated or not: the record is older than the snapshot and
replay skips it. -/
theorem takeSnapshot_late_timestamp_loses_set :
    (∃ σ, (System.start emptyStore 100 (ascii "k") (ascii "v")).run lateStampSchedule = some σ ∧
      σ.setTask.done = true ∧ σ.setTask.timestamp = some 100 ∧
      σ.snapTask.timestamp = some 101 ∧ σ.snapTask.rotated = true ∧
      (Get σ.store (ascii "k")).1 = (ascii "v", true) ∧
      restartGet σ.store (ascii "k") = some ([], false)) ∧
    (∃ σ, (System.start emptyStore 100 (ascii "k") (ascii "v")).run lateStampNoRotate = some σ ∧
      σ.setTask.done = true ∧ σ.snapTask.written = true ∧
      σ.store.walFile = walEntry 100 (ascii "k") (ascii "v") ∧
      restartGet σ.store (ascii "k") = some ([], false)) := by
  constructor
  · refine ⟨_, rfl, ?_, ?_, ?_, ?_, ?_, ?_⟩ <;> decide
  · refine ⟨_, rfl, ?_, ?_, ?_, ?_⟩ <;> decide

/-! ## C10: statistics after recovery -/

/-- C10 fails on the code.  `NewShardedStore` on a log with the one record
`1,k,QQ==` recovers one key with a value of one byte, and leaves every counter
at zero: `recoverStore` never touches the statistics.  A following
`Set("k", "")` finds the key, subtracts the old length from zero and wraps
`totalSizeBytes` to 2^64 - 1. -/
theorem NewShardedStore_stats_not_rebuilt :
    ∃ s, NewShardedStore oneRecordDisk = Except.ok s ∧
      s.stats = ⟨0, 0, 0, 0, 0⟩ ∧
      shardSizeSum s.shards = 1 ∧
      valueBytesSum s.shards = 1 ∧
      (Get s (ascii "k")).1 = ([65], true) ∧
      (Set s ⟨2, none, false⟩ (ascii "k") []).2.stats.totalSizeBytes = 2 ^ 64 - 1 := by
  refine ⟨_, rfl, ?_, ?_, ?_, ?_, ?_⟩ <;> decide

/-! ## Lemmas: every key is in the shard of the router -/

theorem Placed_empty : Placed emptyShards := by
  intro i k hk
  exact absurd hk (AList.not_mem_empty k)

theorem Placed_install (sh : Fin numShards → KeyValueStoreShard) (key : Key) (value : Value)
    (h : Placed sh) : Placed (install sh key value) := by
  intro i k hk
  unfold install at hk
  by_cases hi : i = getShard key
  · subst hi
    rw [Function.update_same, AList.mem_insert] at hk
    rcases hk with rfl | hk
    · rfl
    · exact h _ k hk
  · rw [Function.update_noteq hi] at hk
    exact h i k hk

theorem Placed_replayLine (ts : Int) (sh : Fin numShards → KeyValueStoreShard) (l : List Nat)
    (h : Placed sh) : Placed (replayLine ts sh l) := by
  rw [replayLine_eq_overlayLine]
  unfold overlayLine
  split
  · split_ifs
    · exact Placed_install _ _ _ h
    · exact h
  · exact h

theorem Placed_foldl_replayLine (ts : Int) (ls : List (List Nat)) :
    ∀ sh : Fin numShards → KeyValueStoreShard, Placed sh → Placed (ls.foldl (replayLine ts) sh) := by
  induction ls with
  | nil => intro sh h; exact h
  | cons l ls ih => intro sh h; exact ih _ (Placed_replayLine ts sh l h)

theorem Placed_loadSnapshot (snap : SnapshotData) (sh : Fin numShards → KeyValueStoreShard)
    (h : Placed sh) : Placed (loadSnapshot sh snap) := by
  unfold loadSnapshot
  generalize snap.Data.entries = es
  induction es generalizing sh with
  | nil => exact h
  | cons e es ih => exact ih _ (Placed_install sh e.1 e.2 h)

theorem Placed_recoverStore (s : ShardedStore) (f : SnapshotFile) (w : WalFile)
    (h : Placed s.shards) : Placed (recoverStore s f w).1.shards := by
  have hload : ∀ snap, Placed (loadSnapshot s.shards snap) :=
    fun snap => Placed_loadSnapshot snap s.shards h
  cases f <;> cases w <;> simp only [recoverStore] <;>
    first
      | exact h
      | exact hload _
      | exact Placed_foldl_replayLine _ _ _ h
      | exact Placed_foldl_replayLine _ _ _ (hload _)

theorem takeSnapshot_shards (s : ShardedStore) (io : SnapshotOutcome) (now : Int) :
    (takeSnapshot s io now).shards = s.shards := by
  unfold takeSnapshot writeSnapshot rotateWal
  simp only []
  split_ifs <;> rfl

theorem GetPrefixStream_shards (s : ShardedStore) (pfx : Key) (f : Option Nat) :
    (GetPrefixStream s pfx f).2.shards = s.shards := by
  unfold GetPrefixStream
  cases f with
  | none => rfl
  | some n =>
    simp only []
    split_ifs <;> rfl

/-- A successful start: recovery returned no error, and shards and counters
are those recovery left. -/
theorem NewShardedStore_ok (d : Disk) (s : ShardedStore) (h : NewShardedStore d = Except.ok s) :
    ∃ s1, recoverStore ⟨emptyShards, ⟨0, 0, 0, 0, 0⟩, [], 0, false, d.snapshot, []⟩
        d.snapshot d.wal = (s1, none) ∧ s.shards = s1.shards ∧ s.stats = s1.stats := by
  by_cases hm : d.mkdirFails = true
  · simp [NewShardedStore, hm] at h
  · rcases hr : recoverStore ⟨emptyShards, ⟨0, 0, 0, 0, 0⟩, [], 0, false, d.snapshot, []⟩
        d.snapshot d.wal with ⟨s1, e⟩
    cases e with
    | some err => simp [NewShardedStore, hm, hr] at h
    | none =>
      by_cases ho : d.openFails = true ∨ d.statFails = true
      · simp [NewShardedStore, hm, hr, ho] at h
      · simp only [NewShardedStore, hm, hr, ho, if_false, Bool.false_eq_true,
          Except.ok.injEq] at h
        subst h
        exact ⟨s1, rfl, rfl, rfl⟩

theorem NewShardedStore_shards (d : Disk) (s : ShardedStore)
    (h : NewShardedStore d = Except.ok s) : Placed s.shards := by
  obtain ⟨s1, hr, hsh, _⟩ := NewShardedStore_ok d s h
  have hp := Placed_recoverStore ⟨emptyShards, ⟨0, 0, 0, 0, 0⟩, [], 0, false, d.snapshot, []⟩
    d.snapshot d.wal Placed_empty
  rw [hr] at hp
  rw [hsh]
  exact hp

/-- Reachable states keep every key in the shard of the router. -/
theorem Reachable_Placed (s : ShardedStore) (h : Reachable s) : Placed s.shards := by
  induction h with
  | start d s hd => exact NewShardedStore_shards d s hd
  | set s io k v _ ih =>
    rw [Set_shards]
    split_ifs
    · exact Placed_install _ _ _ ih
    · exact ih
  | get s k _ ih => rw [Get_shards]; exact ih
  | scan s pfx f _ ih => rw [GetPrefixStream_shards]; exact ih
  | snapshot s io now _ ih => rw [takeSnapshot_shards]; exact ih
/-! ## C9: prefix scan -/

theorem mem_prefixWorker (shard : KeyValueStoreShard) (pfx k : Key) (v : Value) :
    (k, v) ∈ prefixWorker shard pfx ↔ shard.lookup k = some v ∧ pfx <+: k := by
  unfold prefixWorker
  simp only [List.mem_map, List.mem_filter, List.isPrefixOf_iff_prefix, Prod.mk.injEq]
  constructor
  · rintro ⟨⟨k1, v1⟩, ⟨he, hp⟩, rfl, rfl⟩
    exact ⟨AList.mem_lookup_iff.mpr he, hp⟩
  · rintro ⟨hl, hp⟩
    exact ⟨⟨k, v⟩, ⟨AList.mem_lookup_iff.mp hl, hp⟩, rfl, rfl⟩

theorem prefixWorker_keys (shard : KeyValueStoreShard) (pfx : Key) :
    ((prefixWorker shard pfx).map Prod.fst).Nodup ∧
    ∀ k ∈ (prefixWorker shard pfx).map Prod.fst, k ∈ shard := by
  have hsub : ((prefixWorker shard pfx).map Prod.fst).Sublist shard.keys := by
    unfold prefixWorker AList.keys List.keys
    rw [List.map_map]
    exact List.Sublist.map _ (List.filter_sublist _)
  exact ⟨shard.keys_nodup.sublist hsub, fun k hk => AList.mem_keys.mpr (hsub.subset hk)⟩

theorem mem_prefixResults (s : ShardedStore) (hp : Placed s.shards) (pfx k : Key) (v : Value) :
    (k, v) ∈ prefixResults s pfx ↔
      (s.shards (getShard k)).lookup k = some v ∧ pfx <+: k := by
  unfold prefixResults
  simp only [List.mem_flatMap, List.mem_finRange, true_and, mem_prefixWorker]
  constructor
  · rintro ⟨i, hl, hpre⟩
    have hk : k ∈ s.shards i := AList.lookup_isSome.mp (by rw [hl]; rfl)
    rw [hp i k hk]
    exact ⟨hl, hpre⟩
  · intro h
    exact ⟨getShard k, h⟩

theorem prefixResults_nodup (s : ShardedStore) (hp : Placed s.shards) (pfx : Key) :
    ((prefixResults s pfx).map Prod.fst).Nodup := by
  unfold prefixResults
  rw [List.map_flatMap, List.nodup_flatMap]
  refine ⟨fun i _ => (prefixWorker_keys (s.shards i) pfx).1, ?_⟩
  refine (List.nodup_finRange numShards).imp ?_
  intro i j hij
  show List.Disjoint _ _
  intro k hi hj
  have h1 := hp i k ((prefixWorker_keys (s.shards i) pfx).2 k hi)
  have h2 := hp j k ((prefixWorker_keys (s.shards j) pfx).2 k hj)
  exact hij (h1.symm.trans h2)

/-- C9. For every state the server can reach (start-up with recovery, then
handlers and snapshots) and every prefix, a `GetPrefixStream` that returns no
error (all its sends succeeded) has sent pairs with pairwise different keys,
and a pair `(k, v)` is among them exactly when `k` starts with the prefix and
the store holds `v` under `k` (`Get k` would find `v`); afterwards
`prefixOperations` is one higher and the shards are unchanged. -/
theorem GetPrefixStream_exact (s : ShardedStore) (pfx : Key) (f : Option Nat)
    (hs : Reachable s) (hsend : (GetPrefixStream s pfx f).1.2 = false) :
    ((GetPrefixStream s pfx f).1.1.map Prod.fst).Nodup ∧
    (∀ k v, (k, v) ∈ (GetPrefixStream s pfx f).1.1 ↔
      ((Get s k).1 = (v, true) ∧ pfx <+: k)) ∧
    (GetPrefixStream s pfx f).2.stats.prefixOperations =
      addU64 s.stats.prefixOperations 1 ∧
    (GetPrefixStream s pfx f).2.shards = s.shards := by
  have hp := Reachable_Placed s hs
  have hget : ∀ k v, (Get s k).1 = (v, true) ↔ (s.shards (getShard k)).lookup k = some v := by
    intro k v
    rw [Get_fst]
    cases (s.shards (getShard k)).lookup k with
    | none => simp
    | some w => simp
  have hres : (GetPrefixStream s pfx f).1.1 = prefixResults s pfx ∧
      (GetPrefixStream s pfx f).2.stats.prefixOperations =
        addU64 s.stats.prefixOperations 1 := by
    unfold GetPrefixStream at hsend ⊢
    cases f with
    | none => exact ⟨rfl, rfl⟩
    | some n =>
      simp only [] at hsend ⊢
      split_ifs at hsend ⊢ with hn
      exact ⟨rfl, rfl⟩
  rw [hres.1]
  refine ⟨prefixResults_nodup s hp pfx, fun k v => ?_, hres.2, GetPrefixStream_shards s pfx f⟩
  rw [mem_prefixResults s hp, hget]

/-- C9 on the store of the second end-to-end scenario with a third key outside
the prefix. -/
theorem GetPrefixStream_exact_witness :
    ((GetPrefixStream (runSets emptyStore
        [(⟨1, none, false⟩, ascii "k1", ascii "v1"), (⟨2, none, false⟩, ascii "k2", ascii "v2"),
          (⟨3, none, false⟩, ascii "a", ascii "v3")]) (ascii "k") none).1.1.map Prod.fst).Nodup ∧
    (∀ k v, (k, v) ∈ (GetPrefixStream (runSets emptyStore
        [(⟨1, none, false⟩, ascii "k1", ascii "v1"), (⟨2, none, false⟩, ascii "k2", ascii "v2"),
          (⟨3, none, false⟩, ascii "a", ascii "v3")]) (ascii "k") none).1.1 ↔
      ((Get (runSets emptyStore
        [(⟨1, none, false⟩, ascii "k1", ascii "v1"), (⟨2, none, false⟩, ascii "k2", ascii "v2"),
          (⟨3, none, false⟩, ascii "a", ascii "v3")]) k).1 = (v, true) ∧ ascii "k" <+: k)) ∧
    (GetPrefixStream (runSets emptyStore
        [(⟨1, none, false⟩, ascii "k1", ascii "v1"), (⟨2, none, false⟩, ascii "k2", ascii "v2"),
          (⟨3, none, false⟩, ascii "a", ascii "v3")]) (ascii "k") none).2.stats.prefixOperations =
      addU64 (runSets emptyStore
        [(⟨1, none, false⟩, ascii "k1", ascii "v1"), (⟨2, none, false⟩, ascii "k2", ascii "v2"),
          (⟨3, none, false⟩, ascii "a", ascii "v3")]).stats.prefixOperations 1 ∧
    (GetPrefixStream (runSets emptyStore
        [(⟨1, none, false⟩, ascii "k1", ascii "v1"), (⟨2, none, false⟩, ascii "k2", ascii "v2"),
          (⟨3, none, false⟩, ascii "a", ascii "v3")]) (ascii "k") none).2.shards =
      (runSets emptyStore
        [(⟨1, none, false⟩, ascii "k1", ascii "v1"), (⟨2, none, false⟩, ascii "k2", ascii "v2"),
          (⟨3, none, false⟩, ascii "a", ascii "v3")]).shards :=
  GetPrefixStream_exact _ (ascii "k") none
    (Reachable.set _ _ _ _ (Reachable.set _ _ _ _ (Reachable.set _ _ _ _
      (Reachable.start freshDisk emptyStore rfl)))) rfl
/-! ## Lemmas: sums over the shards -/

theorem sum_kerase (w : (Σ _ : Key, Value) → Nat) (k : Key) :
    ∀ (l : List (Σ _ : Key, Value)) (old : Value), List.dlookup k l = some old →
      (l.map w).sum = w ⟨k, old⟩ + ((List.kerase k l).map w).sum := by
  intro l
  induction l with
  | nil => intro old h; simp at h
  | cons hd tl ih =>
    intro old h
    obtain ⟨k1, v1⟩ := hd
    by_cases hk : k = k1
    · subst hk
      rw [List.dlookup_cons_eq] at h
      simp only [Option.some.injEq] at h
      subst h
      have hke : List.kerase k ((⟨k, v1⟩ : Σ _ : Key, Value) :: tl) = tl :=
        List.kerase_cons_eq rfl
      rw [hke]
      simp
    · rw [List.dlookup_cons_ne _ _ hk] at h
      rw [List.kerase_cons_ne hk]
      simp only [List.map_cons, List.sum_cons]
      rw [ih old h]
      omega

/-- Weight of a map after `m[k] = v`, against the weight before. -/
theorem weight_insert (w : (Σ _ : Key, Value) → Nat) (m : GoMap) (k : Key) (v : Value) :
    ((m.insert k v).entries.map w).sum +
        (match m.lookup k with
          | some old => w ⟨k, old⟩
          | none => 0) =
      (m.entries.map w).sum + w ⟨k, v⟩ := by
  rw [AList.insert_entries]
  simp only [List.map_cons, List.sum_cons]
  cases h : m.lookup k with
  | none =>
    have hk : k ∉ m.entries.keys := List.dlookup_eq_none.mp h
    rw [List.kerase_of_not_mem_keys hk]
    simp only []
    omega
  | some old =>
    rw [sum_kerase w k m.entries old h]
    simp only []
    omega

theorem sum_install (w : (Σ _ : Key, Value) → Nat) (sh : Fin numShards → KeyValueStoreShard)
    (k : Key) (v : Value) :
    (∑ i, ((install sh k v i).entries.map w).sum) +
        (match (sh (getShard k)).lookup k with
          | some old => w ⟨k, old⟩
          | none => 0) =
      (∑ i, ((sh i).entries.map w).sum) + w ⟨k, v⟩ := by
  have hupd : (fun i => ((install sh k v i).entries.map w).sum) =
      Function.update (fun i => ((sh i).entries.map w).sum) (getShard k)
        ((((sh (getShard k)).insert k v).entries.map w).sum) := by
    funext i
    unfold install
    by_cases hi : i = getShard k
    · subst hi; simp
    · simp [Function.update_noteq hi]
  rw [hupd, Finset.sum_update_of_mem (Finset.mem_univ _)]
  have hsplit : (∑ i, ((sh i).entries.map w).sum) =
      ((sh (getShard k)).entries.map w).sum +
        ∑ i ∈ Finset.univ \ {getShard k}, ((sh i).entries.map w).sum := by
    rw [Finset.sdiff_singleton_eq_erase]
    exact (Finset.add_sum_erase Finset.univ _ (Finset.mem_univ _)).symm
  rw [hsplit]
  have := weight_insert w (sh (getShard k)) k v
  omega

theorem sum_map_one (l : List (Σ _ : Key, Value)) : (l.map (fun _ => 1)).sum = l.length := by
  induction l with
  | nil => rfl
  | cons a l ih => simp only [List.map_cons, List.sum_cons, List.length_cons, ih]; omega

theorem shardSizeSum_eq (sh : Fin numShards → KeyValueStoreShard) :
    shardSizeSum sh = ∑ i, ((sh i).entries.map (fun _ => 1)).sum := by
  unfold shardSizeSum
  simp only [sum_map_one]

theorem shardSizeSum_install (sh : Fin numShards → KeyValueStoreShard) (k : Key) (v : Value) :
    shardSizeSum (install sh k v) =
      shardSizeSum sh + (if (sh (getShard k)).lookup k = none then 1 else 0) := by
  have h := sum_install (fun _ => 1) sh k v
  rw [shardSizeSum_eq, shardSizeSum_eq]
  cases hl : (sh (getShard k)).lookup k with
  | none => rw [hl] at h; simp only [] at h; simpa using h
  | some old => rw [hl] at h; simp only [] at h; simp only [reduceCtorEq, if_false]; omega

theorem valueBytesSum_install (sh : Fin numShards → KeyValueStoreShard) (k : Key) (v : Value) :
    valueBytesSum (install sh k v) +
        (match (sh (getShard k)).lookup k with
          | some old => old.length
          | none => 0) =
      valueBytesSum sh + v.length :=
  sum_install (fun e => e.2.length) sh k v

theorem Coherent_setInMemory (s : ShardedStore) (k : Key) (v : Value) (h : Coherent s) :
    Coherent (setInMemory s k v) := by
  obtain ⟨hK, hT⟩ := h
  have hN := shardSizeSum_install s.shards k v
  have hS := valueBytesSum_install s.shards k v
  unfold Coherent setInMemory
  simp only []
  cases hl : (s.shards (getShard k)).lookup k with
  | none =>
    rw [hl] at hN hS
    simp only [if_true] at hN hS ⊢
    rw [hN, hK, hT]
    simp only [u64, addU64] at *
    constructor <;> omega
  | some old =>
    rw [hl] at hN hS
    simp only [reduceCtorEq, if_false] at hN hS ⊢
    rw [hN, hK, hT]
    simp only [u64, addU64, subU64] at *
    constructor <;> omega

/-- Invariant I3 is kept by every `Set`, whatever its outcome. -/
theorem Coherent_Set (s : ShardedStore) (io : WalOutcome) (k : Key) (v : Value)
    (h : Coherent s) : Coherent (Set s io k v).2 := by
  have hlog : Coherent (logOperation s io k v).2 := by
    unfold Coherent
    rw [(logOperation_shards s io k v).1, (logOperation_shards s io k v).2]
    exact h
  rcases Set_cases s io k v with ⟨_, e⟩ | ⟨_, _, e⟩ | ⟨_, _, e⟩
  · rw [e]; exact h
  · rw [e]; exact hlog
  · rw [e]; exact Coherent_setInMemory _ k v hlog
/-! ## Lemmas: the keys of the store after a run of `Set` calls -/

theorem Set_lookup (s : ShardedStore) (io : WalOutcome) (k1 : Key) (v : Value) (k : Key)
    (h : (Set s io k1 v).1 = SetResult.ok) :
    ((Set s io k1 v).2.shards (getShard k)).lookup k =
      if k1 = k then some v else (s.shards (getShard k)).lookup k := by
  rw [Set_shards, if_pos h]
  by_cases hk : k1 = k
  · subst hk
    rw [if_pos rfl, install_lookup_self]
  · rw [if_neg hk, install_lookup_ne _ _ _ _ hk]

theorem runSets_lookup (k : Key) :
    ∀ (ops : List (WalOutcome × Key × Value)) (s : ShardedStore), allSucceed s ops →
      ((runSets s ops).shards (getShard k)).lookup k =
        match lastValue k (ops.map (fun op => op.2)) with
        | some w => some w
        | none => (s.shards (getShard k)).lookup k := by
  intro ops
  induction ops with
  | nil => intro s _; rfl
  | cons op ops ih =>
    intro s h
    obtain ⟨io, k1, v⟩ := op
    obtain ⟨h1, h2⟩ := h
    simp only [runSets, List.map_cons, lastValue]
    rw [ih _ h2, Set_lookup s io k1 v k h1]
    cases lastValue k (ops.map (fun op => op.2)) with
    | some w => rfl
    | none =>
      simp only []
      split_ifs <;> rfl

theorem lastValue_eq_none (k : Key) (ops : List (Key × Value)) :
    lastValue k ops = none ↔ k ∉ ops.map Prod.fst := by
  induction ops with
  | nil => simp [lastValue]
  | cons op ops ih =>
    obtain ⟨k1, v⟩ := op
    simp only [lastValue, List.map_cons, List.mem_cons, not_or]
    cases hl : lastValue k ops with
    | some w =>
      have : ¬ (k ∉ ops.map Prod.fst) := fun hn => by
        rw [ih.mpr hn] at hl; cases hl
      simp only [reduceCtorEq, false_iff, not_and]
      exact fun _ => this
    | none =>
      have := ih.mp hl
      simp only []
      split_ifs with hk
      · simp [hk]
      · simp [this, Ne.symm hk]

theorem runSets_Coherent :
    ∀ (ops : List (WalOutcome × Key × Value)) (s : ShardedStore), Coherent s →
      Coherent (runSets s ops) := by
  intro ops
  induction ops with
  | nil => intro s h; exact h
  | cons op ops ih =>
    intro s h
    obtain ⟨io, k1, v⟩ := op
    exact ih _ (Coherent_Set s io k1 v h)

theorem runSets_Placed :
    ∀ (ops : List (WalOutcome × Key × Value)) (s : ShardedStore), Placed s.shards →
      Placed (runSets s ops).shards := by
  intro ops
  induction ops with
  | nil => intro s h; exact h
  | cons op ops ih =>
    intro s h
    obtain ⟨io, k1, v⟩ := op
    refine ih _ ?_
    rw [Set_shards]
    split_ifs
    · exact Placed_install _ _ _ h
    · exact h

theorem allKeys_nodup (sh : Fin numShards → KeyValueStoreShard) (hp : Placed sh) :
    (allKeys sh).Nodup := by
  unfold allKeys
  rw [List.nodup_flatMap]
  refine ⟨fun i _ => (sh i).keys_nodup, (List.nodup_finRange numShards).imp ?_⟩
  intro i j hij
  show List.Disjoint _ _
  intro k hi hj
  exact hij ((hp i k (AList.mem_keys.mpr hi)).symm.trans (hp j k (AList.mem_keys.mpr hj)))

theorem mem_allKeys (sh : Fin numShards → KeyValueStoreShard) (hp : Placed sh) (k : Key) :
    k ∈ allKeys sh ↔ (sh (getShard k)).lookup k ≠ none := by
  unfold allKeys
  simp only [List.mem_flatMap, List.mem_finRange, true_and, ne_eq, AList.lookup_eq_none,
    not_not]
  constructor
  · rintro ⟨i, hi⟩
    have := hp i k (AList.mem_keys.mpr hi)
    rw [this]
    exact AList.mem_keys.mpr hi
  · intro h
    exact ⟨getShard k, AList.mem_keys.mp h⟩

theorem shardSizeSum_allKeys (sh : Fin numShards → KeyValueStoreShard) :
    shardSizeSum sh = (allKeys sh).length := by
  unfold shardSizeSum allKeys
  rw [List.length_flatMap, Fin.sum_univ_def]
  congr 1
  apply List.map_congr_left
  intro i _
  simp [AList.keys, List.keys]

theorem entries_values (m : GoMap) :
    m.entries.map (fun e => e.2.length) =
      m.keys.map (fun k => ((m.lookup k).getD []).length) := by
  unfold AList.keys List.keys
  rw [List.map_map]
  apply List.map_congr_left
  intro e he
  obtain ⟨k, v⟩ := e
  have : m.lookup k = some v := AList.mem_lookup_iff.mpr he
  simp [this]

theorem valueBytesSum_allKeys (sh : Fin numShards → KeyValueStoreShard) (hp : Placed sh) :
    valueBytesSum sh =
      ((allKeys sh).map (fun k => (((sh (getShard k)).lookup k).getD []).length)).sum := by
  unfold valueBytesSum allKeys
  rw [Fin.sum_univ_def, List.map_flatMap, List.flatMap, List.sum_flatten, List.map_map]
  congr 1
  apply List.map_congr_left
  intro i _
  simp only [Function.comp]
  rw [entries_values]
  congr 1
  apply List.map_congr_left
  intro k hk
  rw [hp i k (AList.mem_keys.mpr hk)]
/-! ## C2: statistics coherence under `Set` -/

theorem Coherent_emptyStore : Coherent emptyStore := by
  unfold Coherent emptyStore shardSizeSum valueBytesSum emptyShards
  simp [u64]

/-- C2. Start from the empty store with zeroed counters and let every call of
a finite sequence `ops` of `Set` calls succeed.  Then, as `uint64` values,
`totalKeys` is the number of distinct keys written, which is the sum of the
shard sizes, and `totalSizeBytes` is the sum of the lengths of the values
stored, which is the sum over the distinct keys of the length of the last
value written to the key; and `Get` of a key returns that last value. -/
theorem stats_coherent_after_sets (ops : List (WalOutcome × Key × Value))
    (h : allSucceed emptyStore ops) :
    (runSets emptyStore ops).stats.totalKeys =
      u64 ((ops.map (fun op => op.2.1)).dedup.length) ∧
    (ops.map (fun op => op.2.1)).dedup.length = shardSizeSum (runSets emptyStore ops).shards ∧
    (runSets emptyStore ops).stats.totalSizeBytes =
      u64 (valueBytesSum (runSets emptyStore ops).shards) ∧
    valueBytesSum (runSets emptyStore ops).shards =
      (((ops.map (fun op => op.2.1)).dedup).map
        (fun k => ((lastValue k (ops.map (fun op => op.2))).getD []).length)).sum ∧
    (∀ k, (Get (runSets emptyStore ops) k).1 =
      match lastValue k (ops.map (fun op => op.2)) with
      | some v => (v, true)
      | none => ([], false)) := by
  have hco := runSets_Coherent ops emptyStore Coherent_emptyStore
  have hpl := runSets_Placed ops emptyStore Placed_empty
  have hlook : ∀ k, ((runSets emptyStore ops).shards (getShard k)).lookup k =
      lastValue k (ops.map (fun op => op.2)) := by
    intro k
    rw [runSets_lookup k ops emptyStore h]
    cases lastValue k (ops.map (fun op => op.2)) with
    | some w => rfl
    | none => rfl
  have hkeys : (ops.map (fun op => op.2)).map Prod.fst = ops.map (fun op => op.2.1) := by
    rw [List.map_map]; rfl
  have hperm : (allKeys (runSets emptyStore ops).shards).Perm
      (ops.map (fun op => op.2.1)).dedup := by
    rw [List.perm_ext_iff_of_nodup (allKeys_nodup _ hpl) (List.nodup_dedup _)]
    intro k
    rw [mem_allKeys _ hpl, hlook, List.mem_dedup, ← hkeys, ne_eq, lastValue_eq_none, not_not]
  have hN : (ops.map (fun op => op.2.1)).dedup.length =
      shardSizeSum (runSets emptyStore ops).shards := by
    rw [shardSizeSum_allKeys]
    exact hperm.length_eq.symm
  have hS : valueBytesSum (runSets emptyStore ops).shards =
      (((ops.map (fun op => op.2.1)).dedup).map
        (fun k => ((lastValue k (ops.map (fun op => op.2))).getD []).length)).sum := by
    rw [valueBytesSum_allKeys _ hpl]
    simp only [hlook]
    exact (hperm.map _).sum_eq
  refine ⟨?_, hN, hco.2, hS, fun k => ?_⟩
  · rw [hN]; exact hco.1
  · rw [Get_fst, hlook]

/-- C2 on the first and the sixth end-to-end scenario together: `alpha` is
written twice, `k` gets the empty value. -/
theorem stats_coherent_after_sets_witness :
    (runSets emptyStore [(⟨1, none, false⟩, ascii "alpha", ascii "1"),
        (⟨2, none, false⟩, ascii "alpha", ascii "22"),
        (⟨3, none, false⟩, ascii "k", [])]).stats.totalKeys = 2 ∧
    (runSets emptyStore [(⟨1, none, false⟩, ascii "alpha", ascii "1"),
        (⟨2, none, false⟩, ascii "alpha", ascii "22"),
        (⟨3, none, false⟩, ascii "k", [])]).stats.totalSizeBytes = 2 ∧
    shardSizeSum (runSets emptyStore [(⟨1, none, false⟩, ascii "alpha", ascii "1"),
        (⟨2, none, false⟩, ascii "alpha", ascii "22"),
        (⟨3, none, false⟩, ascii "k", [])]).shards = 2 :=
  have h := stats_coherent_after_sets [(⟨1, none, false⟩, ascii "alpha", ascii "1"),
    (⟨2, none, false⟩, ascii "alpha", ascii "22"), (⟨3, none, false⟩, ascii "k", [])]
    ⟨by decide, by decide, by decide, trivial⟩
  ⟨h.1.trans (by decide), h.2.2.1.trans (by rw [h.2.2.2.1]; decide), h.2.1.symm.trans (by decide)⟩
/-! ## Lemmas: what start-up and the snapshot task never do -/

theorem recoverStore_stats (s : ShardedStore) (f : SnapshotFile) (w : WalFile) :
    (recoverStore s f w).1.stats = s.stats := by
  cases f <;> cases w <;> rfl

/-- Every store that `NewShardedStore` returns has all five counters at zero,
whatever the snapshot and the log hold. -/
theorem NewShardedStore_stats (d : Disk) (s : ShardedStore)
    (h : NewShardedStore d = Except.ok s) : s.stats = ⟨0, 0, 0, 0, 0⟩ := by
  obtain ⟨s1, hr, _, hst⟩ := NewShardedStore_ok d s h
  have := recoverStore_stats ⟨emptyShards, ⟨0, 0, 0, 0, 0⟩, [], 0, false, d.snapshot, []⟩
    d.snapshot d.wal
  rw [hr] at this
  rw [hst]
  exact this

/-- In every interleaving the snapshot task has a timestamp only once its copy
loop has passed all shards: line 241 comes after the loop. -/
theorem step_stamp_after_copy (σ σ1 : System) (e : Event) (h : σ.step e = some σ1)
    (hinv : σ.snapTask.timestamp ≠ none → σ.snapTask.next = numShards) :
    σ1.snapTask.timestamp ≠ none → σ1.snapTask.next = numShards := by
  cases e with
  | tick d =>
    simp only [System.step, Option.some.injEq] at h
    subst h
    exact hinv
  | setStamp =>
    simp only [System.step] at h
    split at h
    · simp only [Option.some.injEq] at h
      subst h
      exact hinv
    · cases h
  | setAppend =>
    simp only [System.step] at h
    split at h
    · simp only [Option.some.injEq] at h
      subst h
      exact hinv
    · cases h
  | setInstall =>
    simp only [System.step] at h
    split_ifs at h
    simp only [Option.some.injEq] at h
    subst h
    exact hinv
  | snapCopy =>
    simp only [System.step] at h
    split_ifs at h with hlt
    simp only [Option.some.injEq] at h
    subst h
    intro hts
    have := hinv hts
    omega
  | snapStamp =>
    simp only [System.step] at h
    split_ifs at h with hc
    simp only [Option.some.injEq] at h
    subst h
    intro _
    exact hc.1
  | snapWrite =>
    simp only [System.step] at h
    split at h
    · simp only [Option.some.injEq] at h
      subst h
      exact hinv
    · cases h
  | snapRotate =>
    simp only [System.step] at h
    split_ifs at h
    simp only [Option.some.injEq] at h
    subst h
    exact hinv

theorem run_stamp_after_copy (es : List Event) :
    ∀ (σ σ1 : System), σ.run es = some σ1 →
      (σ.snapTask.timestamp ≠ none → σ.snapTask.next = numShards) →
      σ1.snapTask.timestamp ≠ none → σ1.snapTask.next = numShards := by
  induction es with
  | nil =>
    intro σ σ1 h hinv
    simp only [System.run, Option.some.injEq] at h
    subst h
    exact hinv
  | cons e es ih =>
    intro σ σ1 h hinv
    simp only [System.run] at h
    cases hs : σ.step e with
    | none => rw [hs] at h; cases h
    | some σ2 =>
      rw [hs] at h
      exact ih σ2 σ1 h (step_stamp_after_copy σ σ2 e hs hinv)
/-! ## C11: snapshot, then recovery -/

theorem foldl_insert_lookup (k : Key) :
    ∀ (l : List (Σ _ : Key, Value)) (m : GoMap), l.NodupKeys →
      (l.foldl (fun m e => m.insert e.1 e.2) m).lookup k =
        match List.dlookup k l with
        | some v => some v
        | none => m.lookup k := by
  intro l
  induction l with
  | nil => intro m _; rfl
  | cons e tl ih =>
    intro m hnd
    obtain ⟨k1, v1⟩ := e
    have htl : tl.NodupKeys := (List.nodupKeys_cons.mp hnd).2
    have hk1 : k1 ∉ tl.keys := (List.nodupKeys_cons.mp hnd).1
    rw [List.foldl_cons, ih _ htl]
    by_cases hk : k = k1
    · subst hk
      rw [List.dlookup_cons_eq, List.dlookup_eq_none.mpr hk1]
      exact AList.lookup_insert m
    · rw [List.dlookup_cons_ne _ _ hk]
      cases List.dlookup k tl with
      | some v => rfl
      | none => exact AList.lookup_insert_ne hk

theorem copyShard_lookup (m : GoMap) (shard : KeyValueStoreShard) (k : Key) :
    (copyShard m shard).lookup k =
      match shard.lookup k with
      | some v => some v
      | none => m.lookup k :=
  foldl_insert_lookup k shard.entries m shard.nodupKeys

/-- The map the copy loop builds holds, for every key, what the shard of the
key holds. -/
theorem copyShards_lookup (shards : Fin numShards → KeyValueStoreShard) (hp : Placed shards)
    (k : Key) :
    ∀ (is : List (Fin numShards)) (m : GoMap),
      (is.foldl (fun m i => copyShard m (shards i)) m).lookup k =
        match (if getShard k ∈ is then (shards (getShard k)).lookup k else none) with
        | some v => some v
        | none => m.lookup k := by
  intro is
  induction is with
  | nil => intro m; simp
  | cons i rest ih =>
    intro m
    rw [List.foldl_cons, ih, copyShard_lookup]
    have hother : ∀ j : Fin numShards, j ≠ getShard k → (shards j).lookup k = none := by
      intro j hj
      rw [AList.lookup_eq_none]
      intro hmem
      exact hj (hp j k hmem).symm
    by_cases hi : i = getShard k
    · subst hi
      rw [if_pos (List.mem_cons_self _ _)]
      by_cases hg : getShard k ∈ rest
      · rw [if_pos hg]
        cases (shards (getShard k)).lookup k <;> rfl
      · rw [if_neg hg]
    · rw [hother i hi]
      by_cases hg : getShard k ∈ rest
      · rw [if_pos hg, if_pos (List.mem_cons_of_mem i hg)]
      · have hni : getShard k ∉ i :: rest := by
          simp only [List.mem_cons, not_or]
          exact ⟨fun e => hi e.symm, hg⟩
        rw [if_neg hg, if_neg hni]

theorem jsonStringAux_valid :
    ∀ (fuel : Nat) (s : List Nat), utf8ValidAux fuel s = true → jsonStringAux fuel s = s := by
  intro fuel
  induction fuel with
  | zero =>
    intro s h
    cases s with
    | nil => rfl
    | cons b rest => simp [utf8ValidAux] at h
  | succ fuel ih =>
    intro s h
    cases s with
    | nil => rfl
    | cons b rest =>
      unfold utf8ValidAux at h
      unfold jsonStringAux
      cases hr : runeLen (b :: rest) with
      | zero => simp [hr] at h
      | succ n =>
        simp only [hr] at h ⊢
        rw [ih _ h, List.take_append_drop]

/-- A key that is valid UTF-8 is written to the snapshot and read back as it
is. -/
theorem jsonString_valid (s : List Nat) (h : utf8Valid s = true) : jsonString s = s :=
  jsonStringAux_valid s.length s h

theorem foldl_insert_jsonString :
    ∀ (l : List (Σ _ : Key, Value)) (m : GoMap), (∀ e ∈ l, utf8Valid e.1 = true) →
      l.foldl (fun m e => m.insert (jsonString e.1) e.2) m =
        l.foldl (fun m e => m.insert e.1 e.2) m := by
  intro l
  induction l with
  | nil => intro m _; rfl
  | cons e tl ih =>
    intro m h
    rw [List.foldl_cons, List.foldl_cons, jsonString_valid e.1 (h e (List.mem_cons_self _ _))]
    exact ih _ (fun e1 he1 => h e1 (List.mem_cons_of_mem _ he1))

/-- A map whose keys are all valid UTF-8 comes back from the snapshot file
with the same value under every key. -/
theorem jsonData_lookup (m : GoMap) (hv : ∀ k ∈ m, utf8Valid k = true) (k : Key) :
    (jsonData m).lookup k = m.lookup k := by
  have hperm : (m.entries.insertionSort (fun a b => a.1 ≤ b.1)).Perm m.entries :=
    List.perm_insertionSort _ _
  have hnd : (m.entries.insertionSort (fun a b => a.1 ≤ b.1)).NodupKeys :=
    (List.perm_nodupKeys hperm).mpr m.nodupKeys
  have hvalid : ∀ e ∈ m.entries.insertionSort (fun a b => a.1 ≤ b.1), utf8Valid e.1 = true := by
    intro e he
    apply hv
    rw [AList.mem_keys, AList.keys]
    exact List.mem_keys_of_mem (hperm.subset he)
  unfold jsonData
  rw [foldl_insert_jsonString _ _ hvalid, foldl_insert_lookup k _ ∅ hnd,
    List.perm_dlookup k hnd m.nodupKeys hperm]
  show (match m.lookup k with
    | some v => some v
    | none => none) = m.lookup k
  cases m.lookup k <;> rfl

theorem copyShards_mem (shards : Fin numShards → KeyValueStoreShard) (hp : Placed shards)
    (k : Key)
    (h : k ∈ (List.finRange numShards).foldl (fun m i => copyShard m (shards i)) ∅) :
    k ∈ shards (getShard k) := by
  by_contra hn
  have h1 := copyShards_lookup shards hp k (List.finRange numShards) ∅
  rw [if_pos (List.mem_finRange _), AList.lookup_eq_none.mpr hn] at h1
  exact (AList.lookup_eq_none.mp h1) h

theorem takeSnapshot_complete (s : ShardedStore) (now : Int) :
    takeSnapshot s ⟨false, false, false, false⟩ now =
      { s with
        snapshotFile := SnapshotFile.parsed
          ⟨now, jsonData
            ((List.finRange numShards).foldl (fun m i => copyShard m (s.shards i)) ∅)⟩
        walFile := []
        walSize := 0
        walBackups := s.walFile :: s.walBackups } := by
  simp [takeSnapshot, writeSnapshot, rotateWal]

theorem NewShardedStore_of_recover (d : Disk) (s1 : ShardedStore)
    (hm : d.mkdirFails = false) (ho : d.openFails = false) (hst : d.statFails = false)
    (hr : recoverStore ⟨emptyShards, ⟨0, 0, 0, 0, 0⟩, [], 0, false, d.snapshot, []⟩
      d.snapshot d.wal = (s1, none)) :
    ∃ s2, NewShardedStore d = Except.ok s2 ∧ s2.shards = s1.shards := by
  simp only [NewShardedStore, hm, hr, ho, hst, Bool.false_eq_true, if_false, or_self]
  exact ⟨_, rfl, rfl⟩

/-- After a snapshot that runs to the end, a restart gives back every shard
whose keys are valid UTF-8: under every key the rebuilt shard holds what the
shard held before. -/
theorem takeSnapshot_restart (s : ShardedStore) (now : Int) (hp : Placed s.shards)
    (hv : ∀ (i : Fin numShards) (k : Key), k ∈ s.shards i → utf8Valid k = true) :
    ∃ s2, NewShardedStore (diskOf (takeSnapshot s ⟨false, false, false, false⟩ now)) =
        Except.ok s2 ∧
      ∀ (i : Fin numShards) (k : Key), (s2.shards i).lookup k = (s.shards i).lookup k := by
  rw [takeSnapshot_complete]
  have hr : recoverStore ⟨emptyShards, ⟨0, 0, 0, 0, 0⟩, [], 0, false,
      SnapshotFile.parsed
        ⟨now, jsonData
          ((List.finRange numShards).foldl (fun m i => copyShard m (s.shards i)) ∅)⟩, []⟩
      (SnapshotFile.parsed
        ⟨now, jsonData
          ((List.finRange numShards).foldl (fun m i => copyShard m (s.shards i)) ∅)⟩)
      (WalFile.content []) =
      (⟨loadSnapshot emptyShards
          ⟨now, jsonData
            ((List.finRange numShards).foldl (fun m i => copyShard m (s.shards i)) ∅)⟩,
        ⟨0, 0, 0, 0, 0⟩, [], 0, false,
        SnapshotFile.parsed
          ⟨now, jsonData
            ((List.finRange numShards).foldl (fun m i => copyShard m (s.shards i)) ∅)⟩,
        []⟩, none) := by
    simp only [recoverStore, scanLines, scanLinesAux, if_true, List.foldl_nil]
  obtain ⟨s2, h2, hsh⟩ := NewShardedStore_of_recover
    (diskOf { s with
      snapshotFile := SnapshotFile.parsed
        ⟨now, jsonData
          ((List.finRange numShards).foldl (fun m i => copyShard m (s.shards i)) ∅)⟩
      walFile := []
      walSize := 0
      walBackups := s.walFile :: s.walBackups }) _ rfl rfl rfl hr
  refine ⟨s2, h2, ?_⟩
  intro i k
  rw [hsh]
  show ((loadSnapshot emptyShards _) i).lookup k = _
  rw [loadSnapshot_lookup]
  by_cases hi : i = getShard k
  · rw [if_pos hi]
    show (jsonData (List.foldl (fun m i => copyShard m (s.shards i)) ∅
      (List.finRange numShards))).lookup k = _
    rw [jsonData_lookup _ (fun k1 hk1 => hv _ k1 (copyShards_mem s.shards hp k1 hk1)),
      copyShards_lookup s.shards hp k, if_pos (List.mem_finRange _), hi]
    cases (s.shards (getShard k)).lookup k <;> rfl
  · rw [if_neg hi]
    symm
    rw [AList.lookup_eq_none]
    intro hmem
    exact hi (hp i k hmem).symm

/-- The keys a run of successful `Set` calls leaves in the empty store are
keys of the calls. -/
theorem runSets_mem (ops : List (WalOutcome × Key × Value)) (h : allSucceed emptyStore ops)
    (i : Fin numShards) (k : Key) (hk : k ∈ (runSets emptyStore ops).shards i) :
    ∃ op ∈ ops, op.2.1 = k := by
  have hpl := runSets_Placed ops emptyStore Placed_empty
  have hi : getShard k = i := hpl i k hk
  subst hi
  have hl := runSets_lookup k ops emptyStore h
  by_contra hn
  have hnone : lastValue k (ops.map (fun op => op.2)) = none := by
    rw [lastValue_eq_none]
    intro hmem
    simp only [List.mem_map] at hmem
    obtain ⟨p, ⟨op, hop, rfl⟩, hp⟩ := hmem
    exact hn ⟨op, hop, hp⟩
  rw [hnone] at hl
  have he : (emptyStore.shards (getShard k)).lookup k = none := rfl
  simp only [he] at hl
  exact (AList.lookup_eq_none.mp hl) hk

/-- C11 (amended). Let every call of a finite sequence `ops` of `Set` calls
succeed on the empty store, let every key of these calls be valid UTF-8, and
let `takeSnapshot` then run to the end with no concurrent `Set`: the snapshot
is written and the log is rotated to an empty file.  A restart from that
snapshot and log succeeds, and every shard of the rebuilt store holds exactly
the entries it held before (the same entries up to order, the same value under
every key); `Get` of any key answers as before: a key set before returns its
last value, any other key is not found. -/
theorem snapshot_then_recovery (ops : List (WalOutcome × Key × Value)) (now : Int)
    (h : allSucceed emptyStore ops) (hutf : ∀ op ∈ ops, utf8Valid op.2.1 = true) :
    ∃ s2, NewShardedStore (diskOf
        (takeSnapshot (runSets emptyStore ops) ⟨false, false, false, false⟩ now)) =
          Except.ok s2 ∧
      (takeSnapshot (runSets emptyStore ops) ⟨false, false, false, false⟩ now).walFile = [] ∧
      (∀ i, (s2.shards i).entries.Perm ((runSets emptyStore ops).shards i).entries) ∧
      (∀ i k, (s2.shards i).lookup k = ((runSets emptyStore ops).shards i).lookup k) ∧
      (∀ k, (Get s2 k).1 = (Get (runSets emptyStore ops) k).1) ∧
      (∀ k, (Get s2 k).1 =
        match lastValue k (ops.map (fun op => op.2)) with
        | some v => (v, true)
        | none => ([], false)) := by
  have hpl := runSets_Placed ops emptyStore Placed_empty
  have hv : ∀ (i : Fin numShards) (k : Key), k ∈ (runSets emptyStore ops).shards i →
      utf8Valid k = true := by
    intro i k hk
    obtain ⟨op, hop, rfl⟩ := runSets_mem ops h i k hk
    exact hutf op hop
  obtain ⟨s2, h2, hlook⟩ := takeSnapshot_restart (runSets emptyStore ops) now hpl hv
  have hget : ∀ k, (Get s2 k).1 = (Get (runSets emptyStore ops) k).1 := by
    intro k
    rw [Get_fst, Get_fst, hlook]
  refine ⟨s2, h2, ?_, ?_, hlook, hget, ?_⟩
  · rw [takeSnapshot_complete]
  · intro i
    refine List.lookup_ext (s2.shards i).nodupKeys ((runSets emptyStore ops).shards i).nodupKeys ?_
    intro k v
    have := hlook i k
    unfold AList.lookup at this
    rw [this]
  · intro k
    rw [hget, Get_fst, runSets_lookup k ops emptyStore h]
    cases lastValue k (ops.map (fun op => op.2)) with
    | some w => rfl
    | none => rfl

/-- C11 (amended) on the calls `scenarioSets`: after snapshot and restart
`alpha` reads `2`, `x` reads `hello`, the key of the two characters in UTF-8
reads `7` and `beta` is not found. -/
theorem snapshot_then_recovery_witness :
    (∃ s2, NewShardedStore (diskOf (takeSnapshot (runSets emptyStore scenarioSets)
        ⟨false, false, false, false⟩ 10)) = Except.ok s2 ∧
      (Get s2 (ascii "alpha")).1 = (ascii "2", true) ∧
      (Get s2 (ascii "x")).1 = (ascii "hello", true) ∧
      (Get s2 [195, 169, 226, 130, 172]).1 = (ascii "7", true) ∧
      (Get s2 (ascii "beta")).1 = ([], false)) ∧
    restartGet (takeSnapshot (runSets emptyStore scenarioSets) ⟨false, false, false, false⟩ 10)
      (ascii "alpha") = some (ascii "2", true) ∧
    restartGet (takeSnapshot (runSets emptyStore scenarioSets) ⟨false, false, false, false⟩ 10)
      [195, 169, 226, 130, 172] = some (ascii "7", true) ∧
    restartGet (takeSnapshot (runSets emptyStore scenarioSets) ⟨false, false, false, false⟩ 10)
      (ascii "beta") = some ([], false) :=
  ⟨(snapshot_then_recovery scenarioSets 10
    ⟨by decide, by decide, by decide, by decide, trivial⟩ (by decide)).elim
    (fun s2 hs => ⟨s2, hs.1, (hs.2.2.2.2.2 (ascii "alpha")).trans (by decide),
      (hs.2.2.2.2.2 (ascii "x")).trans (by decide),
      (hs.2.2.2.2.2 [195, 169, 226, 130, 172]).trans (by decide),
      (hs.2.2.2.2.2 (ascii "beta")).trans (by decide)⟩),
    by decide, by decide, by decide⟩

/-- C11 fails as stated: `Set` accepts the key of the single byte `FF`, which
is not valid UTF-8, and `Get` reads its value; `json.Marshal` writes that key
to the snapshot as U+FFFD, so after a snapshot that runs to the end and a
restart the key `FF` is not found and its value stands under the key
`EF BF BD`, which was never set.  Two such keys, `FE` and `FF`, become the same
key and one value is lost. -/
theorem snapshot_changes_invalid_utf8_key :
    utf8Valid [255] = false ∧
    (Set emptyStore ⟨1, none, false⟩ [255] [1]).1 = SetResult.ok ∧
    (Get (runSets emptyStore [(⟨1, none, false⟩, [255], [1])]) [255]).1 = ([1], true) ∧
    (Get (runSets emptyStore [(⟨1, none, false⟩, [255], [1])]) [239, 191, 189]).1
      = ([], false) ∧
    (takeSnapshot (runSets emptyStore [(⟨1, none, false⟩, [255], [1])])
      ⟨false, false, false, false⟩ 10).walFile = [] ∧
    restartGet (takeSnapshot (runSets emptyStore [(⟨1, none, false⟩, [255], [1])])
      ⟨false, false, false, false⟩ 10) [255] = some ([], false) ∧
    restartGet (takeSnapshot (runSets emptyStore [(⟨1, none, false⟩, [255], [1])])
      ⟨false, false, false, false⟩ 10) [239, 191, 189] = some ([1], true) ∧
    restartGet (takeSnapshot (runSets emptyStore
        [(⟨1, none, false⟩, [255], [1]), (⟨2, none, false⟩, [254], [2])])
      ⟨false, false, false, false⟩ 10) [254] = some ([], false) ∧
    restartGet (takeSnapshot (runSets emptyStore
        [(⟨1, none, false⟩, [255], [1]), (⟨2, none, false⟩, [254], [2])])
      ⟨false, false, false, false⟩ 10) [239, 191, 189] = some ([1], true) := by
  refine ⟨?_, ?_, ?_, ?_, ?_, ?_, ?_, ?_, ?_⟩ <;> decide

/-! ## C12: router range -/

theorem fnvStep_lt (h c : Nat) : fnvStep h c < 2 ^ 32 :=
  Nat.mod_lt _ (by decide)

theorem fnv32a_lt (key : Key) : fnv32a key < 2 ^ 32 := by
  unfold fnv32a
  have hgen : ∀ (l : List Nat) (h : Nat), h < 2 ^ 32 → l.foldl fnvStep h < 2 ^ 32 := by
    intro l
    induction l with
    | nil => intro h hh; exact hh
    | cons c cs ih => intro h _; exact ih _ (fnvStep_lt h c)
  exact hgen key _ (by decide)

/-- C12. For every key, the empty one included, the index `getShard` uses is
the FNV-1a hash of the key bytes, a 32-bit value, modulo 32, and it lies in
`[0, 32)`: it is a valid position among the 32 shards `NewShardedStore`
creates.  The index is a function of the key bytes alone, so the same key
always gives the same index; the empty key gives 2166136261 mod 32 = 5. -/
theorem shardIndex_range (key : Key) :
    numShards = 32 ∧
    fnv32a key < 2 ^ 32 ∧
    shardIndex key = fnv32a key % 32 ∧
    shardIndex key < 32 ∧
    (getShard key).val = shardIndex key ∧
    (∀ key2 : Key, key2 = key → getShard key2 = getShard key) ∧
    shardIndex [] = 5 := by
  refine ⟨rfl, fnv32a_lt key, rfl, ?_, rfl, fun key2 h => by rw [h], by decide⟩
  exact Nat.mod_lt _ (by decide)

/-- C12 at the key `alpha`: index 11, and the same index when asked again. -/
theorem shardIndex_range_witness :
    shardIndex (ascii "alpha") = 11 ∧ shardIndex (ascii "alpha") < 32 ∧
    getShard (ascii "alpha") = getShard (ascii "alpha") :=
  ⟨by decide, (shardIndex_range (ascii "alpha")).2.2.2.1,
    (shardIndex_range (ascii "alpha")).2.2.2.2.2.1 (ascii "alpha") rfl⟩

/-! ## C13: value size against the scanner limit -/

/-- Every record is longer than the base64 text of its value. -/
theorem walLine_ge (ts : Int) (key : Key) (value : Value) :
    key.length + 4 * ((value.length + 2) / 3) + 2 ≤ (walLine ts key value).length := by
  rw [walLine_length]
  omega

/-- A value of 7864320 bytes or more gives a record the scanner rejects,
whatever the timestamp and the key. -/
theorem scanLines_walEntry_tooLong (ts : Int) (key : Key) (value : Value)
    (hkey : 10 ∉ key) (hval : 7864320 ≤ value.length) :
    scanLines (walEntry ts key value) = ([], some StoreError.tooLong) := by
  rw [walEntry_eq]
  refine scanLines_tooLong _ [] (walLine_no_newline ts key value hkey) ?_
  have := walLine_ge ts key value
  unfold maxLineSize
  omega

theorem logOperation_snapshotFile (s : ShardedStore) (io : WalOutcome) (key : Key)
    (value : Value) : (logOperation s io key value).2.snapshotFile = s.snapshotFile := by
  unfold logOperation
  cases io.writeErr with
  | some n => rfl
  | none =>
    simp only []
    split_ifs <;> rfl

theorem setInMemory_files (s : ShardedStore) (key : Key) (value : Value) :
    (setInMemory s key value).walFile = s.walFile ∧
    (setInMemory s key value).snapshotFile = s.snapshotFile :=
  ⟨rfl, rfl⟩

/-- On a store with an empty log and no snapshot a `Set` of a value of 7864320
bytes or more succeeds, and the log it leaves cannot be recovered: the next
start fails with `ErrTooLong`. -/
theorem Set_large_value_restart (s : ShardedStore) (ts : Int) (key : Key) (value : Value)
    (hs : s.walFile = []) (hsf : s.snapshotFile = SnapshotFile.missing)
    (hk : key.length ≤ 128) (hkey : 10 ∉ key) (hval : 7864320 ≤ value.length) :
    (Set s ⟨ts, none, false⟩ key value).1 = SetResult.ok ∧
    (Set s ⟨ts, none, false⟩ key value).2.walFile = walEntry ts key value ∧
    maxLineSize < (walEntry ts key value).length ∧
    NewShardedStore (diskOf (Set s ⟨ts, none, false⟩ key value).2) =
      Except.error StoreError.tooLong ∧
    restartGet (Set s ⟨ts, none, false⟩ key value).2 key = none := by
  have hlog := logOperation_result s ⟨ts, none, false⟩ key value
  have hnone : (logOperation s ⟨ts, none, false⟩ key value).1 = none :=
    hlog.1.mpr ⟨rfl, rfl⟩
  have hset := Set_ok s ⟨ts, none, false⟩ key value
    (by simp only [MaxKeySize]; omega) hnone
  have hwal : (Set s ⟨ts, none, false⟩ key value).2.walFile = walEntry ts key value := by
    rw [hset]
    show (setInMemory _ key value).walFile = _
    rw [(setInMemory_files _ key value).1, hlog.2 hnone, hs, List.nil_append]
  have hsnap : (Set s ⟨ts, none, false⟩ key value).2.snapshotFile =
      SnapshotFile.missing := by
    rw [hset]
    show (setInMemory _ key value).snapshotFile = _
    rw [(setInMemory_files _ key value).2, logOperation_snapshotFile, hsf]
  have hscan := scanLines_walEntry_tooLong ts key value hkey hval
  have hnew : NewShardedStore (diskOf (Set s ⟨ts, none, false⟩ key value).2) =
      Except.error StoreError.tooLong := by
    simp only [NewShardedStore, diskOf, hwal, hsnap, recoverStore, hscan, List.foldl_nil,
      Bool.false_eq_true, if_false]
  have hlen : maxLineSize < (walEntry ts key value).length := by
    rw [walEntry_eq, List.length_append, List.length_singleton]
    have := walLine_ge ts key value
    unfold maxLineSize
    omega
  refine ⟨by rw [hset], hwal, hlen, hnew, ?_⟩
  unfold restartGet
  rw [hnew]

/-- C13 fails on the code.  `Set("k", largeValue)` with a value of 7864320
bytes (7.5 MiB, below the message cap of 10 MiB = 10485760 bytes) and a key of
one byte succeeds on the empty store and leaves the one record of the call in
the log.  The record has more than `maxLineSize` bytes, and a restart on that
log fails: `NewShardedStore` returns the scanner error `ErrTooLong`. -/
theorem large_value_blocks_restart :
    largeValue.length = 7864320 ∧
    (Set emptyStore ⟨1, none, false⟩ (ascii "k") largeValue).1 = SetResult.ok ∧
    (Set emptyStore ⟨1, none, false⟩ (ascii "k") largeValue).2.walFile =
      walEntry 1 (ascii "k") largeValue ∧
    maxLineSize < (walEntry 1 (ascii "k") largeValue).length ∧
    NewShardedStore (diskOf (Set emptyStore ⟨1, none, false⟩ (ascii "k") largeValue).2) =
      Except.error StoreError.tooLong ∧
    restartGet (Set emptyStore ⟨1, none, false⟩ (ascii "k") largeValue).2 (ascii "k") = none :=
  ⟨largeValue_length,
    Set_large_value_restart emptyStore 1 (ascii "k") largeValue rfl rfl (by decide) (by decide)
      (le_of_eq largeValue_length.symm)⟩
end KVStore
